import Mathlib

/-!
Verification of the godx storage-marketplace core against its specification.

The development shallowly embeds the Go sources:
  * the Merkle proof engine of crypto/merkle (callers getLimitStorageProof,
    checkLimitStorageProof, adjacentSubtreeSize, checkLimitList, the cached and
    streaming SubtreeRoot sources are translated from the source file; the
    underlying Tree type (NewTree / PushLeaf / PushSubTree / Root) is not part
    of the provided sources and is modelled from the spec);
  * the host-side upload negotiation revision construction
    (storage/storagehost/hostnegotiation/contractuploadhandler.go);
  * the client-side contract creation, upload and download entry points
    (storageclient);
  * the dpos lucky-wheel selection (consensus/dpos);
  * StorageHost.ReadSector (storage/storagehost/negotiationproto.go).

Hashes are modelled symbolically: a hash value is either an injected leaf hash
of raw data or the combining hash of two child hashes.  Both proof
construction and verification apply the same hash operations, so functional
round-trip properties are provable over this free structure.
-/

namespace Godx

/-- Symbolic hash values: a leaf hash of raw byte data, or an interior-node
hash combining two child hashes.  Raw bytes are modelled as lists of naturals. -/
inductive MHash : Type where
  | leaf : List Nat → MHash
  | node : MHash → MHash → MHash
deriving DecidableEq, Repr

/-- The state of a Merkle tree under construction: a stack of subtrees, most
recently pushed first, each carrying its height and its root hash.

Modelled from the spec: the Tree type of crypto/merkle keeps a stack of
complete subtrees; pushing joins adjacent equal-height subtrees, and Root
collapses what remains. -/
abbrev Stack := List (Nat × MHash)

/-- Modelled from the spec: after a push, adjacent subtrees of equal height are
repeatedly joined (the earlier-pushed subtree is the left child). -/
def joinStack : Stack → Stack
  | (h1, x1) :: (h2, x2) :: rest =>
    if h1 = h2 then joinStack ((h1 + 1, MHash.node x2 x1) :: rest)
    else (h1, x1) :: (h2, x2) :: rest
  | s => s
termination_by s => s.length

/-- Collapse a stack onto an accumulator: each remaining (older) subtree
becomes the left child of the accumulated hash. -/
def collapse : MHash → Stack → MHash
  | x, [] => x
  | x, (_, y) :: rest => collapse (MHash.node y x) rest

/-- Modelled from the spec: Tree.Root joins all remaining subtrees from the
most recent to the oldest; an empty tree has no root (Go returns nil). -/
def treeRoot : Stack → Option MHash
  | [] => none
  | (_, x) :: rest => some (collapse x rest)

/-- Push a height-h subtree without the height-validity check (total version;
used when the check is known to pass). -/
def pushSub (h : Nat) (x : MHash) (s : Stack) : Stack :=
  joinStack ((h, x) :: s)

/-- Modelled from the spec: Tree.PushSubTree inserts a complete subtree of the
given height; it fails when the tree's current smallest subtree is smaller
than the inserted one. -/
def pushSubTree (h : Nat) (x : MHash) (s : Stack) : Option Stack :=
  match s with
  | [] => some (pushSub h x [])
  | (h0, _) :: _ => if h0 < h then none else some (pushSub h x s)

/-- Modelled from the spec: pushing a single leaf hash (height 0) never fails. -/
def pushLeaf (x : MHash) (s : Stack) : Stack :=
  pushSub 0 x s

/-- Push a list of height-0 hashes in order. -/
def pushLeafList (ls : List MHash) (s : Stack) : Stack :=
  ls.foldl (fun t x => pushLeaf x t) s

/-- Modelled from the spec: Sha256CachedTreeRoot2 — the Merkle root of a list
of precomputed leaf roots, as computed by pushing each at height 0. -/
def cachedTreeRoot (ls : List MHash) : Option MHash :=
  treeRoot (pushLeafList ls [])

/-- Heights of the subtrees on a stack, most recent first. -/
def heights (s : Stack) : List Nat :=
  s.map Prod.fst

/-- Total number of height-0 slots represented by a stack. -/
def sumPow (s : Stack) : Nat :=
  s.foldr (fun p acc => 2 ^ p.1 + acc) 0

theorem joinStack_nil : joinStack [] = [] := by
  simp [joinStack]

theorem joinStack_single (h : Nat) (x : MHash) : joinStack [(h, x)] = [(h, x)] := by
  simp [joinStack]

theorem joinStack_cons_cons (h1 h2 : Nat) (x1 x2 : MHash) (rest : Stack) :
    joinStack ((h1, x1) :: (h2, x2) :: rest) =
      if h1 = h2 then joinStack ((h1 + 1, MHash.node x2 x1) :: rest)
      else (h1, x1) :: (h2, x2) :: rest := by
  rw [joinStack]

theorem joinStack_ne_nil (s : Stack) (hs : s ≠ []) : joinStack s ≠ [] := by
  induction s using joinStack.induct with
  | case1 x1 h x2 rest ih =>
    rw [joinStack_cons_cons, if_pos rfl]
    exact ih (by simp)
  | case2 h1 x1 h2 x2 rest hne =>
    rw [joinStack_cons_cons, if_neg hne]
    simp
  | case3 s hform =>
    rw [joinStack]
    · exact hs
    · exact hform

/-- Joining never changes the collapsed root of a stack. -/
theorem treeRoot_joinStack (s : Stack) : treeRoot (joinStack s) = treeRoot s := by
  induction s using joinStack.induct with
  | case1 x1 h x2 rest ih =>
    rw [joinStack_cons_cons, if_pos rfl, ih]
    simp [treeRoot, collapse]
  | case2 h1 x1 h2 x2 rest hne =>
    rw [joinStack_cons_cons, if_neg hne]
  | case3 s hform =>
    rw [joinStack]
    exact hform

/-- Joining preserves the represented leaf count. -/
theorem sumPow_joinStack (s : Stack) : sumPow (joinStack s) = sumPow s := by
  induction s using joinStack.induct with
  | case1 x1 h x2 rest ih =>
    rw [joinStack_cons_cons, if_pos rfl, ih]
    simp [sumPow]
    ring
  | case2 h1 x1 h2 x2 rest hne =>
    rw [joinStack_cons_cons, if_neg hne]
  | case3 s hform =>
    rw [joinStack]
    exact hform

/-- Head height of a stack (0 for the empty stack). -/
def headH : Stack → Nat
  | [] => 0
  | (h, _) :: _ => h

/-- A height h may be pushed onto s: the stack is empty or its smallest
subtree is at least as large. -/
def topOK (h : Nat) : Stack → Prop
  | [] => True
  | (h0, _) :: _ => h ≤ h0

theorem topOK_zero (s : Stack) : topOK 0 s := by
  cases s with
  | nil => trivial
  | cons p rest => exact Nat.zero_le _

theorem topOK_mono {h h' : Nat} {s : Stack} (hle : h ≤ h') (ht : topOK h' s) : topOK h s := by
  cases s with
  | nil => trivial
  | cons p rest => exact le_trans hle ht

theorem pushSubTree_of_topOK {h : Nat} {x : MHash} {s : Stack} (ht : topOK h s) :
    pushSubTree h x s = some (pushSub h x s) := by
  cases s with
  | nil => rfl
  | cons p rest =>
    obtain ⟨h0, x0⟩ := p
    simp only [pushSubTree]
    rw [if_neg (by exact Nat.not_lt.mpr ht)]

theorem sumPow_pushSub (h : Nat) (x : MHash) (s : Stack) :
    sumPow (pushSub h x s) = 2 ^ h + sumPow s := by
  unfold pushSub
  rw [sumPow_joinStack]
  rfl

theorem sumPow_nil : sumPow [] = 0 := rfl

theorem sumPow_pos {s : Stack} (hs : s ≠ []) : 0 < sumPow s := by
  cases s with
  | nil => exact absurd rfl hs
  | cons p rest =>
    have h1 : 0 < 2 ^ p.1 := Nat.pos_pow_of_pos _ (by norm_num)
    have h2 : sumPow (p :: rest) = 2 ^ p.1 + sumPow rest := rfl
    omega

/-- Pushing a subtree onto a well-formed stack keeps the height chain strictly
increasing and bounds the new head height from below. -/
theorem pushSub_shape :
    ∀ (n : Nat) (s : Stack), s.length ≤ n → ∀ (h : Nat) (x : MHash), topOK h s →
      List.Chain' (· < ·) (heights s) →
      List.Chain' (· < ·) (heights (pushSub h x s)) ∧ h ≤ headH (pushSub h x s) ∧
        pushSub h x s ≠ [] := by
  intro n
  induction n with
  | zero =>
    intro s hlen h x _ _
    have hs : s = [] := List.length_eq_zero.mp (Nat.le_zero.mp hlen)
    subst hs
    refine ⟨?_, ?_, ?_⟩ <;> simp [pushSub, joinStack_single, heights, headH]
  | succ n ih =>
    intro s hlen h x htop hchain
    cases s with
    | nil =>
      refine ⟨?_, ?_, ?_⟩ <;> simp [pushSub, joinStack_single, heights, headH]
    | cons p rest =>
      obtain ⟨h0, x0⟩ := p
      by_cases heq : h = h0
      · subst heq
        have hjoin : pushSub h x ((h, x0) :: rest) = pushSub (h + 1) (MHash.node x0 x) rest := by
          unfold pushSub
          rw [joinStack_cons_cons, if_pos rfl]
        have htop' : topOK (h + 1) rest := by
          cases rest with
          | nil => trivial
          | cons q rest' =>
            have := hchain
            simp [heights] at this
            exact Nat.succ_le_of_lt this.1
        have hchain' : List.Chain' (· < ·) (heights rest) := by
          have := hchain
          simp only [heights, List.map_cons] at this
          exact this.tail
        have hlen' : rest.length ≤ n := by
          simp at hlen
          omega
        obtain ⟨c1, c2, c3⟩ := ih rest hlen' (h + 1) (MHash.node x0 x) htop' hchain'
        rw [hjoin]
        exact ⟨c1, le_trans (Nat.le_succ h) c2, c3⟩
      · have hlt : h < h0 := lt_of_le_of_ne htop heq
        have hnojoin : pushSub h x ((h0, x0) :: rest) = (h, x) :: (h0, x0) :: rest := by
          unfold pushSub
          rw [joinStack_cons_cons, if_neg heq]
        rw [hnojoin]
        refine ⟨?_, le_refl h, by simp⟩
        simp only [heights, List.map_cons]
        exact List.Chain'.cons hlt (by simpa [heights] using hchain)

theorem pushSub_ne_nil (h : Nat) (x : MHash) (s : Stack) : pushSub h x s ≠ [] := by
  unfold pushSub
  exact joinStack_ne_nil _ (by simp)

/-- If every height on a stack is at least k, its leaf count is divisible
by 2^k. -/
theorem sumPow_dvd_of_all_ge {k : Nat} :
    ∀ {s : Stack}, (∀ u ∈ heights s, k ≤ u) → 2 ^ k ∣ sumPow s := by
  intro s
  induction s with
  | nil => intro _; simp [sumPow]
  | cons p rest ih =>
    intro hall
    have h1 : k ≤ p.1 := hall p.1 (by simp [heights])
    have h2 : 2 ^ k ∣ sumPow rest := ih (fun u hu => hall u (by simp [heights] at hu ⊢; right; exact hu))
    have h3 : 2 ^ k ∣ 2 ^ p.1 := pow_dvd_pow 2 h1
    have : sumPow (p :: rest) = 2 ^ p.1 + sumPow rest := rfl
    rw [this]
    exact Nat.dvd_add h3 h2

/-- A strictly increasing stack's leaf count is 2^t times an odd number,
where t is the head height. -/
theorem sumPow_odd_factor {t : Nat} {x : MHash} {rest : Stack}
    (hchain : List.Chain' (· < ·) (heights ((t, x) :: rest))) :
    ∃ c, sumPow ((t, x) :: rest) = 2 ^ t * (2 * c + 1) := by
  have hall : ∀ u ∈ heights rest, t + 1 ≤ u := by
    intro u hu
    have hp : List.Pairwise (· < ·) (heights ((t, x) :: rest)) :=
      List.chain'_iff_pairwise.mp hchain
    simp only [heights, List.map_cons, List.pairwise_cons] at hp
    exact Nat.succ_le_of_lt (hp.1 u (by simpa [heights] using hu))
  obtain ⟨c, hc⟩ := sumPow_dvd_of_all_ge hall
  refine ⟨c, ?_⟩
  have : sumPow ((t, x) :: rest) = 2 ^ t + sumPow rest := rfl
  rw [this, hc]
  ring

/-- Alignment availability: if the leaf count of a well-formed nonempty stack
is divisible by 2^h, the head subtree has height at least h. -/
theorem topOK_of_dvd {h : Nat} {s : Stack}
    (hchain : List.Chain' (· < ·) (heights s)) (hdvd : 2 ^ h ∣ sumPow s) (hne : s ≠ []) :
    topOK h s := by
  cases s with
  | nil => trivial
  | cons p rest =>
    obtain ⟨t, x⟩ := p
    obtain ⟨c, hc⟩ := sumPow_odd_factor hchain
    show h ≤ t
    by_contra hgt
    push_neg at hgt
    have h1 : 2 ^ (t + 1) ∣ 2 ^ h := pow_dvd_pow 2 hgt
    have h2 : 2 ^ (t + 1) ∣ 2 ^ t * (2 * c + 1) := hc ▸ h1.trans hdvd
    have h3 : 2 ^ t * 2 ∣ 2 ^ t * (2 * c + 1) := by
      rwa [pow_succ] at h2
    have h4 : (2 : Nat) ∣ 2 * c + 1 :=
      (Nat.mul_dvd_mul_iff_left (Nat.pos_pow_of_pos t (by norm_num))).mp h3
    omega

/-- Joins triggered on top of u ++ s stay inside u while u represents fewer
leaves than the head subtree of s holds. -/
theorem joinStack_append :
    ∀ (n : Nat) (u : Stack), u.length ≤ n → u ≠ [] → ∀ (s : Stack), s ≠ [] →
      sumPow u < 2 ^ headH s → joinStack (u ++ s) = joinStack u ++ s := by
  intro n
  induction n with
  | zero =>
    intro u hlen hu
    exact absurd (List.length_eq_zero.mp (Nat.le_zero.mp hlen)) hu
  | succ n ih =>
    intro u hlen hu s hs hlt
    cases u with
    | nil => exact absurd rfl hu
    | cons a u1 =>
      obtain ⟨a1, a2⟩ := a
      cases u1 with
      | nil =>
        cases s with
        | nil => exact absurd rfl hs
        | cons b s' =>
          obtain ⟨b1, b2⟩ := b
          have hne : a1 ≠ b1 := by
            have h1 : sumPow [(a1, a2)] = 2 ^ a1 := by simp [sumPow]
            have h2 : headH ((b1, b2) :: s') = b1 := rfl
            rw [h1, h2] at hlt
            intro heq
            rw [heq] at hlt
            omega
          show joinStack ((a1, a2) :: (b1, b2) :: s') = joinStack [(a1, a2)] ++ (b1, b2) :: s'
          rw [joinStack_cons_cons, if_neg hne, joinStack_single]
          rfl
      | cons b u2 =>
        obtain ⟨b1, b2⟩ := b
        by_cases heq : a1 = b1
        · subst heq
          have e1 : (((a1, a2) :: (a1, b2) :: u2) ++ s) = (a1, a2) :: (a1, b2) :: (u2 ++ s) := rfl
          rw [e1, joinStack_cons_cons, if_pos rfl]
          have e2 : ((a1 + 1, MHash.node b2 a2) :: (u2 ++ s)) =
              ((a1 + 1, MHash.node b2 a2) :: u2) ++ s := rfl
          rw [e2]
          have hsum : sumPow ((a1 + 1, MHash.node b2 a2) :: u2) =
              sumPow ((a1, a2) :: (a1, b2) :: u2) := by
            show 2 ^ (a1 + 1) + sumPow u2 = 2 ^ a1 + (2 ^ a1 + sumPow u2)
            ring
          have hlen' : ((a1 + 1, MHash.node b2 a2) :: u2).length ≤ n := by
            simp at hlen ⊢
            omega
          rw [ih _ hlen' (by simp) s hs (by rw [hsum]; exact hlt)]
          rw [joinStack_cons_cons ((a1 : Nat)) ((a1 : Nat)) a2 b2 u2, if_pos rfl]
        · have e1 : (((a1, a2) :: (b1, b2) :: u2) ++ s) = (a1, a2) :: (b1, b2) :: (u2 ++ s) := rfl
          rw [e1, joinStack_cons_cons, if_neg heq, joinStack_cons_cons, if_neg heq]
          rfl

theorem pushLeafList_nil (s : Stack) : pushLeafList [] s = s := rfl

theorem pushLeafList_cons (x : MHash) (ls : List MHash) (s : Stack) :
    pushLeafList (x :: ls) s = pushLeafList ls (pushLeaf x s) := rfl

theorem pushLeafList_append (l1 l2 : List MHash) (s : Stack) :
    pushLeafList (l1 ++ l2) s = pushLeafList l2 (pushLeafList l1 s) := by
  unfold pushLeafList
  exact List.foldl_append _ _ _ _

theorem pushLeafList_shape (ls : List MHash) :
    ∀ (s : Stack), List.Chain' (· < ·) (heights s) →
      List.Chain' (· < ·) (heights (pushLeafList ls s)) ∧
        sumPow (pushLeafList ls s) = sumPow s + ls.length := by
  induction ls with
  | nil => intro s hchain; exact ⟨hchain, by simp [pushLeafList_nil]⟩
  | cons x ls ih =>
    intro s hchain
    rw [pushLeafList_cons]
    have hshape := pushSub_shape s.length s (le_refl _) 0 x (topOK_zero s) hchain
    obtain ⟨hc, _, _⟩ := hshape
    obtain ⟨c1, c2⟩ := ih (pushLeaf x s) hc
    refine ⟨c1, ?_⟩
    rw [c2]
    have : sumPow (pushLeaf x s) = 2 ^ 0 + sumPow s := sumPow_pushSub 0 x s
    simp at this
    rw [this]
    simp [List.length_cons]
    omega

theorem pushLeafList_ne_nil (ls : List MHash) :
    ∀ (s : Stack), ls ≠ [] ∨ s ≠ [] → pushLeafList ls s ≠ [] := by
  induction ls with
  | nil =>
    intro s hne
    rw [pushLeafList_nil]
    rcases hne with h | h
    · exact absurd rfl h
    · exact h
  | cons x ls ih =>
    intro s _
    rw [pushLeafList_cons]
    exact ih (pushLeaf x s) (Or.inr (pushSub_ne_nil 0 x s))

/-- Pushing leaves onto a stack whose head subtree is larger than the whole
batch never joins into the stack: the batch accumulates on top. -/
theorem pushLeafList_context (ls : List MHash) :
    ∀ (u s : Stack), s ≠ [] → sumPow u + ls.length < 2 ^ headH s →
      pushLeafList ls (u ++ s) = pushLeafList ls u ++ s := by
  induction ls with
  | nil => intro u s _ _; simp [pushLeafList_nil]
  | cons x ls ih =>
    intro u s hs hbound
    rw [pushLeafList_cons, pushLeafList_cons]
    have hstep : pushLeaf x (u ++ s) = pushLeaf x u ++ s := by
      show joinStack ((0, x) :: (u ++ s)) = joinStack ((0, x) :: u) ++ s
      have e1 : (0, x) :: (u ++ s) = ((0, x) :: u) ++ s := rfl
      rw [e1]
      apply joinStack_append (((0, x) :: u)).length _ (le_refl _) (by simp) s hs
      have : sumPow ((0, x) :: u) = 1 + sumPow u := by
        show 2 ^ 0 + sumPow u = 1 + sumPow u
        norm_num
      rw [this]
      simp [List.length_cons] at hbound
      omega
    rw [hstep]
    apply ih (pushLeaf x u) s hs
    have : sumPow (pushLeaf x u) = 2 ^ 0 + sumPow u := sumPow_pushSub 0 x u
    simp at this
    rw [this]
    simp [List.length_cons] at hbound
    omega

/-- Root of a complete aligned block of 2^h leaves, as reconstructed by the
verifier: the node-combining of the two half blocks. -/
def perfectRoot : Nat → List MHash → MHash
  | 0, l => l.headD (MHash.leaf [])
  | h + 1, l => MHash.node (perfectRoot h (l.take (2 ^ h))) (perfectRoot h (l.drop (2 ^ h)))

/-- Pushing a full aligned block of 2^h leaves equals pushing the block's
perfect subtree root at height h. -/
theorem pushLeafList_block :
    ∀ (h : Nat) (block : List MHash) (s : Stack), block.length = 2 ^ h →
      topOK h s → List.Chain' (· < ·) (heights s) →
      pushLeafList block s = pushSub h (perfectRoot h block) s := by
  intro h
  induction h with
  | zero =>
    intro block s hlen _ _
    obtain ⟨a, ha⟩ := List.length_eq_one.mp (by simpa using hlen)
    subst ha
    rfl
  | succ h ih =>
    intro block s hlen htop hchain
    have hlenL : (block.take (2 ^ h)).length = 2 ^ h := by
      rw [List.length_take, hlen]
      have : 2 ^ h ≤ 2 ^ (h + 1) := Nat.pow_le_pow_right (by norm_num) (Nat.le_succ h)
      omega
    have hlenR : (block.drop (2 ^ h)).length = 2 ^ h := by
      rw [List.length_drop, hlen, pow_succ]
      omega
    have hsplit : block = block.take (2 ^ h) ++ block.drop (2 ^ h) :=
      (List.take_append_drop _ _).symm
    have hsL : pushSub h (perfectRoot h (block.take (2 ^ h))) s =
        (h, perfectRoot h (block.take (2 ^ h))) :: s := by
      cases s with
      | nil => exact joinStack_single _ _
      | cons p rest =>
        obtain ⟨h0, x0⟩ := p
        have hne : h ≠ h0 := by
          have : h + 1 ≤ h0 := htop
          omega
        unfold pushSub
        rw [joinStack_cons_cons, if_neg hne]
    have htop2 : topOK h ((h, perfectRoot h (block.take (2 ^ h))) :: s) := le_refl h
    have hchain2 : List.Chain' (· < ·)
        (heights ((h, perfectRoot h (block.take (2 ^ h))) :: s)) := by
      cases s with
      | nil => simp [heights]
      | cons p rest =>
        obtain ⟨h0, x0⟩ := p
        simp only [heights, List.map_cons]
        refine List.Chain'.cons ?_ (by simpa [heights] using hchain)
        have : h + 1 ≤ h0 := htop
        omega
    calc pushLeafList block s
        = pushLeafList (block.take (2 ^ h) ++ block.drop (2 ^ h)) s := by rw [← hsplit]
      _ = pushLeafList (block.drop (2 ^ h)) (pushLeafList (block.take (2 ^ h)) s) :=
          pushLeafList_append _ _ _
      _ = pushLeafList (block.drop (2 ^ h)) ((h, perfectRoot h (block.take (2 ^ h))) :: s) := by
          rw [ih (block.take (2 ^ h)) s hlenL (topOK_mono (Nat.le_succ h) htop) hchain, hsL]
      _ = pushSub h (perfectRoot h (block.drop (2 ^ h)))
            ((h, perfectRoot h (block.take (2 ^ h))) :: s) :=
          ih (block.drop (2 ^ h)) _ hlenR htop2 hchain2
      _ = pushSub (h + 1) (perfectRoot (h + 1) block) s := by
          show joinStack ((h, perfectRoot h (block.drop (2 ^ h))) ::
            (h, perfectRoot h (block.take (2 ^ h))) :: s) = _
          rw [joinStack_cons_cons, if_pos rfl]
          rfl

theorem collapse_append (x : MHash) (r1 r2 : Stack) :
    collapse x (r1 ++ r2) = collapse (collapse x r1) r2 := by
  induction r1 generalizing x with
  | nil => rfl
  | cons p rest ih =>
    obtain ⟨h0, y⟩ := p
    show collapse (MHash.node y x) (rest ++ r2) = _
    rw [ih]
    rfl

/-- Final short-block push: replacing the last, possibly incomplete block of
leaves by its boundary subtree root (pushed at the block's nominal height)
does not change the final collapsed root. -/
theorem treeRoot_short_block (h : Nat) (block : List MHash) (s : Stack)
    (hne : s ≠ [])
    (hblock : block ≠ []) (hsmall : block.length < 2 ^ headH s)
    (r : MHash) (hr : treeRoot (pushLeafList block []) = some r) :
    treeRoot (pushSub h r s) = treeRoot (pushLeafList block s) := by
  have hctx : pushLeafList block s = pushLeafList block [] ++ s := by
    have := pushLeafList_context block [] s hne (by simpa [sumPow_nil] using hsmall)
    simpa using this
  rw [hctx]
  obtain ⟨p, u', hu⟩ : ∃ p u', pushLeafList block [] = p :: u' := by
    cases hul : pushLeafList block [] with
    | nil => exact absurd hul (pushLeafList_ne_nil block [] (Or.inl hblock))
    | cons p u' => exact ⟨p, u', rfl⟩
  obtain ⟨hp, xp⟩ := p
  have hrr : collapse xp u' = r := by
    rw [hu] at hr
    simpa [treeRoot] using hr
  rw [hu]
  show treeRoot (pushSub h r s) = treeRoot (((hp, xp) :: u') ++ s)
  have e2 : ((hp, xp) :: u') ++ s = (hp, xp) :: (u' ++ s) := rfl
  rw [e2]
  have hL : treeRoot (pushSub h r s) = treeRoot ((h, r) :: s) := by
    unfold pushSub
    exact treeRoot_joinStack _
  rw [hL]
  show some (collapse r s) = some (collapse xp (u' ++ s))
  rw [collapse_append, hrr]

/-- SubTreeLimit (crypto/merkle): a range [left, right) of leaf indices. -/
structure SubTreeLimit where
  left : Nat
  right : Nat
deriving DecidableEq, Repr

/-- Error values of the merkle engine: io.EOF (the no-more-leaves error),
io.ErrUnexpectedEOF, the invalid-parameter error, and a PushSubTree failure. -/
inductive MErr : Type where
  | eof : MErr
  | unexpectedEof : MErr
  | invalidParam : MErr
  | pushErr : MErr
deriving DecidableEq, Repr

/-- Fueled trailing-zero counter; with fuel 64 it models bits.TrailingZeros64
on values below 2^64 (and yields 64 at input 0, as Go does). -/
def tzFuel : Nat → Nat → Nat
  | 0, _ => 0
  | fuel + 1, n => if n % 2 = 1 then 0 else tzFuel fuel (n / 2) + 1

/-- bits.TrailingZeros64 for values in the uint64 range. -/
def trailingZeros64 (n : Nat) : Nat := tzFuel 64 n

/-- Fueled floor-log2; with fuel 64 it computes the floor base-2 logarithm of
values in the uint64 range. -/
def log2Fuel : Nat → Nat → Nat
  | 0, _ => 0
  | fuel + 1, n => if n ≤ 1 then 0 else log2Fuel fuel (n / 2) + 1

/-- bits.Len64: the number of bits needed to represent n; 0 for n = 0. -/
def len64 (n : Nat) : Nat := if n = 0 then 0 else log2Fuel 64 n + 1

/-- adjacentSubtreeSize (crypto/merkle): the size of the largest subtree that
is aligned at index left and fits in the span up to right. -/
def adjacentSubtreeSize (left right : Nat) : Nat :=
  let leftInt := trailingZeros64 left
  let mx := len64 (right - left) - 1
  if mx < leftInt then 2 ^ mx else 2 ^ leftInt

/-- The exponent selected by adjacentSubtreeSize. -/
def hAdj (left right : Nat) : Nat :=
  min (trailingZeros64 left) (len64 (right - left) - 1)

/-- checkLimitList inner loop (checks of elements after the first, against the
predecessor's right bound). -/
def checkLimitListAux (prevRight : Nat) : List SubTreeLimit → Bool
  | [] => true
  | r :: rs =>
    if r.left < r.right ∧ prevRight ≤ r.left then checkLimitListAux r.right rs else false

/-- checkLimitList (crypto/merkle): ranges must be nonempty, sorted, and
non-overlapping (the uint left is never negative). -/
def checkLimitList (limits : List SubTreeLimit) : Bool :=
  match limits with
  | [] => true
  | r :: rs => if r.left < r.right then checkLimitListAux r.right rs else false

/-- Loop body of CachedSubtreeRoot.GetSubtreeRoot: push up to n cached leaf
roots at height 0 (PushSubTree at height 0 cannot fail). -/
def pushCachedLoop : Nat → List MHash → Stack → Stack × List MHash
  | 0, src, t => (t, src)
  | _ + 1, [], t => (t, [])
  | n + 1, x :: src, t => pushCachedLoop n src (pushLeaf x t)

/-- CachedSubtreeRoot.GetSubtreeRoot: io.EOF when no leaf roots remain, else
the root of the (possibly short) subtree over the next n cached roots. -/
def getSubtreeRootCached (src : List MHash) (n : Nat) :
    Except MErr (Option MHash × List MHash) :=
  match src with
  | [] => Except.error MErr.eof
  | _ :: _ =>
    let (t, rest) := pushCachedLoop n src []
    Except.ok (treeRoot t, rest)

/-- CachedSubtreeRoot.Skip: io.ErrUnexpectedEOF when fewer than n roots
remain, else drop n roots. -/
def skipCached (src : List MHash) (n : Nat) : Except MErr (List MHash) :=
  if src.length < n then Except.error MErr.unexpectedEof else Except.ok (src.drop n)

/-- math.MaxUint64, the sentinel bound of the final drain. -/
def U64MAX : Nat := 2 ^ 64 - 1

theorem adjacentSubtreeSize_eq (left right : Nat) :
    adjacentSubtreeSize left right = 2 ^ hAdj left right := by
  unfold adjacentSubtreeSize hAdj
  by_cases hc : len64 (right - left) - 1 < trailingZeros64 left
  · rw [if_pos hc, Nat.min_eq_right (le_of_lt hc)]
  · rw [if_neg hc, Nat.min_eq_left (Nat.not_lt.mp hc)]

theorem adjacentSubtreeSize_pos (left right : Nat) : 0 < adjacentSubtreeSize left right := by
  rw [adjacentSubtreeSize_eq]
  exact Nat.pos_pow_of_pos _ (by norm_num)

/-- consumeUntil of getLimitStorageProof: repeatedly take the root of the next
aligned subtree and append it to the proof, until the leaf index reaches the
bound or the source errors.  The Go loop guard is leafIndex != end over
uint64; the index never exceeds the bound (each step is at most the remaining
span), so the overshoot branch is dead code added only to express the loop as
a terminating recursion. -/
def consumeUntilGet (src : List MHash) (acc : List MHash) (leafIndex endIdx : Nat) :
    List MHash × List MHash × Nat × Option MErr :=
  if leafIndex = endIdx then (acc, src, leafIndex, none)
  else if _hdead : endIdx < leafIndex then (acc, src, leafIndex, some MErr.invalidParam)
  else
    let size := adjacentSubtreeSize leafIndex endIdx
    match getSubtreeRootCached src size with
    | Except.error e => (acc, src, leafIndex, some e)
    | Except.ok (root?, src') =>
      consumeUntilGet src' (acc ++ [root?.getD (MHash.leaf [])]) (leafIndex + size) endIdx
termination_by endIdx - leafIndex
decreasing_by
  have hpos : 0 < adjacentSubtreeSize leafIndex endIdx := adjacentSubtreeSize_pos _ _
  omega

/-- Range loop of getLimitStorageProof: hash the gap before each excluded
range, then skip the excluded range. -/
def getLimitLoopGet : List SubTreeLimit → List MHash → List MHash → Nat →
    List MHash × List MHash × Nat × Option MErr
  | [], src, acc, leafIndex => (acc, src, leafIndex, none)
  | r :: rs, src, acc, leafIndex =>
    match consumeUntilGet src acc leafIndex r.left with
    | (acc1, src1, li1, some e) => (acc1, src1, li1, some e)
    | (acc1, src1, li1, none) =>
      match skipCached src1 (r.right - r.left) with
      | Except.error e => (acc1, src1, li1, some e)
      | Except.ok src2 => getLimitLoopGet rs src2 acc1 (li1 + (r.right - r.left))

/-- Result of getLimitStorageProof: the proof list, the error (none on
success; io.EOF from the final drain is swallowed), and the final state of
the cached leaf source. -/
structure GLSPResult where
  proof : List MHash
  err : Option MErr
  src : List MHash
deriving DecidableEq, Repr

/-- getLimitStorageProof (crypto/merkle) over a cached leaf source: validate
the ranges, hash the gaps, skip the excluded ranges, then drain the remaining
leaves up to the MaxUint64 sentinel, treating io.EOF there as success. -/
def getLimitStorageProof (limits : List SubTreeLimit) (src : List MHash) : GLSPResult :=
  match limits with
  | [] => ⟨[], none, src⟩
  | _ :: _ =>
    if checkLimitList limits then
      match getLimitLoopGet limits src [] 0 with
      | (_, src1, _, some e) => ⟨[], some e, src1⟩
      | (acc1, src1, li1, none) =>
        match consumeUntilGet src1 acc1 li1 U64MAX with
        | (acc2, src2, _, some MErr.eof) => ⟨acc2, none, src2⟩
        | (acc2, src2, _, some e) => ⟨acc2, some e, src2⟩
        | (acc2, src2, _, none) => ⟨acc2, none, src2⟩
    else ⟨[], some MErr.invalidParam, src⟩

/-- LeafRootCached.GetLeafRoot: pop the next claimed leaf hash; io.EOF when
exhausted. -/
def getLeafRootCached : List MHash → Except MErr (MHash × List MHash)
  | [] => Except.error MErr.eof
  | x :: rest => Except.ok (x, rest)

/-- consumeUntil of checkLimitStorageProof: insert proof hashes as whole
subtrees at the height implied by the aligned subtree size, while proof
hashes remain and the bound is not reached.  The dead overshoot branch is as
in consumeUntilGet. -/
def consumeUntilCheck (t : Stack) (proof : List MHash) (leafIndex endIdx : Nat) :
    Except MErr (Stack × List MHash × Nat) :=
  if leafIndex = endIdx then Except.ok (t, proof, leafIndex)
  else
    match proof with
    | [] => Except.ok (t, [], leafIndex)
    | p :: ps =>
      if _hdead : endIdx < leafIndex then Except.error MErr.invalidParam
      else
        let size := adjacentSubtreeSize leafIndex endIdx
        let i := trailingZeros64 size
        match pushSubTree i p t with
        | none => Except.error MErr.pushErr
        | some t' => consumeUntilCheck t' ps (leafIndex + size) endIdx
termination_by endIdx - leafIndex
decreasing_by
  have hpos : 0 < adjacentSubtreeSize leafIndex endIdx := adjacentSubtreeSize_pos _ _
  omega

/-- Per-range loop of checkLimitStorageProof: pop a claimed leaf hash and push
it at height 0 for each excluded index (the Go code panics if the height-0
push fails, which it cannot). -/
def pushRangeLeaves (t : Stack) (claimed : List MHash) : Nat → Except MErr (Stack × List MHash)
  | 0 => Except.ok (t, claimed)
  | k + 1 =>
    match getLeafRootCached claimed with
    | Except.error e => Except.error e
    | Except.ok (x, rest) =>
      match pushSubTree 0 x t with
      | none => Except.error MErr.pushErr
      | some t' => pushRangeLeaves t' rest k

/-- Range loop of checkLimitStorageProof. -/
def checkLimitLoop : List SubTreeLimit → Stack → List MHash → List MHash → Nat →
    Except MErr (Stack × List MHash × List MHash × Nat)
  | [], t, claimed, proof, leafIndex => Except.ok (t, claimed, proof, leafIndex)
  | r :: rs, t, claimed, proof, leafIndex =>
    match consumeUntilCheck t proof leafIndex r.left with
    | Except.error e => Except.error e
    | Except.ok (t1, proof1, li1) =>
      match pushRangeLeaves t1 claimed (r.right - r.left) with
      | Except.error e => Except.error e
      | Except.ok (t2, claimed2) =>
        checkLimitLoop rs t2 claimed2 proof1 (li1 + (r.right - r.left))

/-- checkLimitStorageProof (crypto/merkle): reconstruct the tree from the
proof hashes (whole aligned subtrees) and the claimed leaf hashes of the
excluded ranges, then compare the reconstructed root with the expected one. -/
def checkLimitStorageProof (claimed : List MHash) (limits : List SubTreeLimit)
    (proof : List MHash) (root : MHash) : Except MErr Bool :=
  match limits with
  | [] => Except.ok true
  | _ :: _ =>
    if checkLimitList limits then
      match checkLimitLoop limits [] claimed proof 0 with
      | Except.error e => Except.error e
      | Except.ok (t1, _, proof1, li1) =>
        match consumeUntilCheck t1 proof1 li1 U64MAX with
        | Except.error e => Except.error e
        | Except.ok (t2, _, _) => Except.ok (decide (treeRoot t2 = some root))
    else Except.error MErr.invalidParam

/-- Loop body of SubtreeRootReader.GetSubtreeRoot: read up to leafSize bytes
per leaf, push whatever was read, stop on a short read (EOF or unexpected
EOF). -/
def readerLoop (leafSize : Nat) : Nat → List Nat → Stack → Stack × List Nat
  | 0, stream, t => (t, stream)
  | n + 1, stream, t =>
    let chunk := stream.take leafSize
    let rest := stream.drop leafSize
    let t' := if 0 < chunk.length then pushLeaf (MHash.leaf chunk) t else t
    if chunk.length < leafSize then (t', rest) else readerLoop leafSize n rest t'

/-- SubtreeRootReader.GetSubtreeRoot: hash the next n leaves read from the
byte stream; io.EOF when the resulting tree is empty. -/
def getSubtreeRootReader (leafSize : Nat) (stream : List Nat) (n : Nat) :
    Except MErr (MHash × List Nat) :=
  match readerLoop leafSize n stream [] with
  | (t, rest) =>
    match treeRoot t with
    | none => Except.error MErr.eof
    | some r => Except.ok (r, rest)

theorem tzFuel_spec :
    ∀ (fuel n : Nat), 0 < n → n < 2 ^ fuel →
      ∃ c, n = 2 ^ tzFuel fuel n * (2 * c + 1) := by
  intro fuel
  induction fuel with
  | zero =>
    intro n hpos hlt
    simp at hlt
    omega
  | succ fuel ih =>
    intro n hpos hlt
    by_cases hodd : n % 2 = 1
    · refine ⟨n / 2, ?_⟩
      have : tzFuel (fuel + 1) n = 0 := by simp [tzFuel, hodd]
      rw [this]
      omega
    · have heven : n % 2 = 0 := by omega
      have hhalf_pos : 0 < n / 2 := by omega
      have hhalf_lt : n / 2 < 2 ^ fuel := by
        rw [pow_succ] at hlt
        omega
      obtain ⟨c, hc⟩ := ih (n / 2) hhalf_pos hhalf_lt
      refine ⟨c, ?_⟩
      have htz : tzFuel (fuel + 1) n = tzFuel fuel (n / 2) + 1 := by simp [tzFuel, hodd]
      rw [htz, pow_succ]
      have hn : n = 2 * (n / 2) := by omega
      calc n = 2 * (n / 2) := hn
        _ = 2 * (2 ^ tzFuel fuel (n / 2) * (2 * c + 1)) := by rw [← hc]
        _ = 2 ^ tzFuel fuel (n / 2) * 2 * (2 * c + 1) := by ring

theorem pow2_factor_unique :
    ∀ (a b c : Nat), 2 ^ a = 2 ^ b * (2 * c + 1) → a = b ∧ c = 0 := by
  intro a
  induction a with
  | zero =>
    intro b c h
    simp at h
    rcases b with _ | b
    · simp at h; omega
    · rw [pow_succ] at h
      nlinarith [Nat.pos_pow_of_pos b (show 0 < 2 by norm_num)]
  | succ a ih =>
    intro b c h
    rcases b with _ | b
    · simp at h
      rw [pow_succ] at h
      omega
    · rw [pow_succ, pow_succ] at h
      have hh : 2 ^ b * 2 * (2 * c + 1) = 2 ^ b * (2 * c + 1) * 2 := by ring
      rw [hh] at h
      have h2 : 2 ^ a = 2 ^ b * (2 * c + 1) := by omega
      obtain ⟨e1, e2⟩ := ih b c h2
      exact ⟨by omega, e2⟩

theorem trailingZeros64_dvd {n : Nat} (hpos : 0 < n) (hlt : n < 2 ^ 64) :
    2 ^ trailingZeros64 n ∣ n := by
  obtain ⟨c, hc⟩ := tzFuel_spec 64 n hpos hlt
  exact ⟨2 * c + 1, hc⟩

theorem trailingZeros64_le {n : Nat} (hpos : 0 < n) (hlt : n < 2 ^ 64) :
    trailingZeros64 n ≤ 63 := by
  by_contra hgt
  push_neg at hgt
  have hd := trailingZeros64_dvd hpos hlt
  have h1 : 2 ^ 64 ≤ 2 ^ trailingZeros64 n := Nat.pow_le_pow_right (by norm_num) (by omega)
  have h2 : 2 ^ trailingZeros64 n ≤ n := Nat.le_of_dvd hpos hd
  omega

theorem trailingZeros64_pow {h : Nat} (hle : h ≤ 63) : trailingZeros64 (2 ^ h) = h := by
  have hpos : 0 < 2 ^ h := Nat.pos_pow_of_pos _ (by norm_num)
  have hlt : 2 ^ h < 2 ^ 64 := Nat.pow_lt_pow_right (by norm_num) (by omega)
  obtain ⟨c, hc⟩ := tzFuel_spec 64 (2 ^ h) hpos hlt
  exact (pow2_factor_unique h (trailingZeros64 (2 ^ h)) c hc).1.symm

theorem log2Fuel_spec :
    ∀ (fuel n : Nat), 0 < n → n < 2 ^ fuel →
      2 ^ log2Fuel fuel n ≤ n ∧ n < 2 ^ (log2Fuel fuel n + 1) := by
  intro fuel
  induction fuel with
  | zero =>
    intro n hpos hlt
    simp at hlt
    omega
  | succ fuel ih =>
    intro n hpos hlt
    by_cases hsmall : n ≤ 1
    · have hn1 : n = 1 := by omega
      subst hn1
      simp [log2Fuel]
    · have hlog : log2Fuel (fuel + 1) n = log2Fuel fuel (n / 2) + 1 := by
        simp [log2Fuel, hsmall]
      have hpos2 : 0 < n / 2 := by omega
      have hlt2 : n / 2 < 2 ^ fuel := by
        rw [pow_succ] at hlt
        omega
      obtain ⟨hl, hr⟩ := ih (n / 2) hpos2 hlt2
      rw [hlog]
      have e1 : (2 : Nat) ^ (log2Fuel fuel (n / 2) + 1) = 2 ^ log2Fuel fuel (n / 2) * 2 :=
        pow_succ 2 _
      have e2 : (2 : Nat) ^ (log2Fuel fuel (n / 2) + 1 + 1) =
          2 ^ log2Fuel fuel (n / 2) * 2 * 2 := by
        rw [pow_succ, e1]
      rw [e1] at hr
      rw [e1, e2]
      omega

theorem len64_bounds {d : Nat} (hpos : 0 < d) (hlt : d < 2 ^ 64) :
    2 ^ (len64 d - 1) ≤ d ∧ d < 2 ^ len64 d := by
  unfold len64
  rw [if_neg (by omega)]
  obtain ⟨hl, hr⟩ := log2Fuel_spec 64 d hpos hlt
  constructor
  · simpa using hl
  · exact hr

theorem len64_sub_one_le_63 {d : Nat} (hpos : 0 < d) (hlt : d < 2 ^ 64) :
    len64 d - 1 ≤ 63 := by
  by_contra hgt
  push_neg at hgt
  have h1 := (len64_bounds hpos hlt).1
  have h2 : 2 ^ 64 ≤ 2 ^ (len64 d - 1) := Nat.pow_le_pow_right (by norm_num) (by omega)
  omega

theorem hAdj_le_63 {left right : Nat} (hlt : left < right) (hr : right - left < 2 ^ 64) :
    hAdj left right ≤ 63 := by
  have hd : 0 < right - left := by omega
  have := len64_sub_one_le_63 hd hr
  unfold hAdj
  omega

theorem hAdj_le_tz (left right : Nat) : hAdj left right ≤ trailingZeros64 left :=
  Nat.min_le_left _ _

theorem adjacentSubtreeSize_le_diff {left right : Nat} (hlt : left < right)
    (hspan : right - left < 2 ^ 64) :
    adjacentSubtreeSize left right ≤ right - left := by
  rw [adjacentSubtreeSize_eq]
  have hd : 0 < right - left := by omega
  have hb := (len64_bounds hd hspan).1
  calc 2 ^ hAdj left right ≤ 2 ^ (len64 (right - left) - 1) :=
        Nat.pow_le_pow_right (by norm_num) (Nat.min_le_right _ _)
    _ ≤ right - left := hb

theorem adjacentSubtreeSize_dvd_index {left right : Nat} (hlt : left < 2 ^ 64) :
    2 ^ hAdj left right ∣ left := by
  rcases Nat.eq_zero_or_pos left with h0 | hpos
  · subst h0; exact Dvd.intro 0 rfl
  · exact dvd_trans (pow_dvd_pow 2 (hAdj_le_tz left right)) (trailingZeros64_dvd hpos hlt)

/-- The iteration of claim C2: starting at left, repeatedly advance by the
adjacent subtree size until right is reached, collecting (index, size) steps. -/
def coverSteps (left right : Nat) : List (Nat × Nat) :=
  if left < right then
    (left, adjacentSubtreeSize left right) ::
      coverSteps (left + adjacentSubtreeSize left right) right
  else []
termination_by right - left
decreasing_by
  have := adjacentSubtreeSize_pos left right
  omega

theorem coverSteps_stop {left right : Nat} (h : ¬ left < right) : coverSteps left right = [] := by
  rw [coverSteps]
  exact dif_neg h

theorem coverSteps_step {left right : Nat} (h : left < right) :
    coverSteps left right =
      (left, adjacentSubtreeSize left right) ::
        coverSteps (left + adjacentSubtreeSize left right) right := by
  rw [coverSteps]
  exact dif_pos h

/-- The cover iteration partitions [left, right) into power-of-two, aligned
subtree intervals. -/
theorem coverSteps_spec :
    ∀ (d left right : Nat), right - left ≤ d → right < 2 ^ 64 →
      ((coverSteps left right).flatMap fun p => List.range' p.1 p.2) =
          List.range' left (right - left) ∧
        ∀ p ∈ coverSteps left right,
          (∃ k, p.2 = 2 ^ k) ∧ p.2 ∣ p.1 ∧ p.1 + p.2 ≤ right := by
  intro d
  induction d with
  | zero =>
    intro left right hle hr
    have hstop : ¬ left < right := by omega
    rw [coverSteps_stop hstop]
    constructor
    · have : right - left = 0 := by omega
      simp [this]
    · intro p hp
      simp at hp
  | succ d ih =>
    intro left right hle hr
    by_cases h : left < right
    · have hspan : right - left < 2 ^ 64 := by omega
      have hsize := adjacentSubtreeSize_le_diff h hspan
      have hpos := adjacentSubtreeSize_pos left right
      have hrec : right - (left + adjacentSubtreeSize left right) ≤ d := by omega
      obtain ⟨ihcov, ihal⟩ := ih (left + adjacentSubtreeSize left right) right hrec hr
      rw [coverSteps_step h]
      constructor
      · simp only [List.flatMap_cons]
        rw [ihcov]
        have happ := List.range'_append_1 left (adjacentSubtreeSize left right)
          (right - (left + adjacentSubtreeSize left right))
        rw [happ]
        congr 1
        omega
      · intro p hp
        simp only [List.mem_cons] at hp
        rcases hp with hp | hp
        · subst hp
          refine ⟨⟨hAdj left right, adjacentSubtreeSize_eq left right⟩, ?_, by omega⟩
          rw [adjacentSubtreeSize_eq]
          exact adjacentSubtreeSize_dvd_index (by omega)
        · exact ihal p hp
    · rw [coverSteps_stop h]
      constructor
      · have : right - left = 0 := by omega
        simp [this]
      · intro p hp
        simp at hp

/-- The verifier-side reference stack: the tree state after pushing the first
m leaf roots. -/
def specStack (leaves : List MHash) (m : Nat) : Stack :=
  pushLeafList (leaves.take m) []

theorem specStack_zero (leaves : List MHash) : specStack leaves 0 = [] := rfl

theorem specStack_chain (leaves : List MHash) (m : Nat) :
    List.Chain' (· < ·) (heights (specStack leaves m)) :=
  (pushLeafList_shape (leaves.take m) [] (by simp [heights])).1

theorem specStack_sum (leaves : List MHash) (m : Nat) (hm : m ≤ leaves.length) :
    sumPow (specStack leaves m) = m := by
  have := (pushLeafList_shape (leaves.take m) [] (by simp [heights])).2
  rw [specStack, this, sumPow_nil, List.length_take]
  omega

theorem specStack_ne_nil (leaves : List MHash) (m : Nat) (h0 : 0 < m)
    (hm : m ≤ leaves.length) : specStack leaves m ≠ [] := by
  apply pushLeafList_ne_nil
  left
  have hlen : (leaves.take m).length = m := by
    rw [List.length_take]
    omega
  intro hnil
  rw [hnil] at hlen
  simp at hlen
  omega

theorem specStack_block (leaves : List MHash) (m k : Nat) :
    pushLeafList ((leaves.drop m).take k) (specStack leaves m) = specStack leaves (m + k) := by
  unfold specStack
  rw [List.take_add, pushLeafList_append]

theorem specStack_succ (leaves : List MHash) (m : Nat) (hm : m < leaves.length) :
    specStack leaves (m + 1) = pushLeaf leaves[m] (specStack leaves m) := by
  have h1 : pushLeafList ((leaves.drop m).take 1) (specStack leaves m) =
      specStack leaves (m + 1) := specStack_block leaves m 1
  rw [← h1, List.drop_eq_getElem_cons hm]
  rfl

theorem pushCachedLoop_spec :
    ∀ (n : Nat) (src : List MHash) (t : Stack),
      pushCachedLoop n src t =
        (pushLeafList (src.take (min n src.length)) t, src.drop n) := by
  intro n
  induction n with
  | zero => intro src t; simp [pushCachedLoop, pushLeafList_nil]
  | succ n ih =>
    intro src t
    cases src with
    | nil => simp [pushCachedLoop, pushLeafList_nil]
    | cons x rest =>
      show pushCachedLoop n rest (pushLeaf x t) = _
      rw [ih rest (pushLeaf x t)]
      have hmin : min (n + 1) (x :: rest).length = min n rest.length + 1 := by
        simp [List.length_cons]
        omega
      rw [hmin]
      rfl

/-- topOK holds for pushing exponent h at an index m that 2^h divides. -/
theorem topOK_specStack {leaves : List MHash} {m h : Nat}
    (hm : m ≤ leaves.length) (hdvd : 2 ^ h ∣ m) :
    topOK h (specStack leaves m) := by
  rcases Nat.eq_zero_or_pos m with h0 | hpos
  · subst h0
    rw [specStack_zero]
    trivial
  · exact topOK_of_dvd (specStack_chain leaves m)
      (by rw [specStack_sum leaves m hm]; exact hdvd)
      (specStack_ne_nil leaves m hpos hm)

/-- A full aligned block step, construction side: taking the subtree root of
the next size cached leaves yields the perfect root of that block. -/
theorem getCached_full_block {leaves : List MHash} {m e : Nat}
    (hfit : m + adjacentSubtreeSize m e ≤ leaves.length) :
    getSubtreeRootCached (leaves.drop m) (adjacentSubtreeSize m e) =
      Except.ok
        (some (perfectRoot (hAdj m e) ((leaves.drop m).take (adjacentSubtreeSize m e))),
          leaves.drop (m + adjacentSubtreeSize m e)) := by
  have hpos := adjacentSubtreeSize_pos m e
  obtain ⟨y, ys, hy⟩ : ∃ y ys, leaves.drop m = y :: ys := by
    cases hd : leaves.drop m with
    | nil =>
      have := congrArg List.length hd
      rw [List.length_drop] at this
      simp at this
      omega
    | cons y ys => exact ⟨y, ys, rfl⟩
  have hblocklen : ((leaves.drop m).take (adjacentSubtreeSize m e)).length =
      adjacentSubtreeSize m e := by
    rw [List.length_take, List.length_drop]
    omega
  have hmin : min (adjacentSubtreeSize m e) (leaves.drop m).length =
      adjacentSubtreeSize m e := by
    rw [List.length_drop]
    omega
  have hfull := pushLeafList_block (hAdj m e) ((leaves.drop m).take (adjacentSubtreeSize m e))
      [] (by rw [hblocklen, adjacentSubtreeSize_eq]) trivial (by simp [heights])
  have hloop := pushCachedLoop_spec (adjacentSubtreeSize m e) (leaves.drop m) []
  rw [hmin, hfull] at hloop
  have hgoal : getSubtreeRootCached (leaves.drop m) (adjacentSubtreeSize m e) =
      Except.ok
        (treeRoot (pushCachedLoop (adjacentSubtreeSize m e) (leaves.drop m) []).1,
          (pushCachedLoop (adjacentSubtreeSize m e) (leaves.drop m) []).2) := by
    rw [hy]
    rfl
  have hsingle : pushSub (hAdj m e)
      (perfectRoot (hAdj m e) ((leaves.drop m).take (adjacentSubtreeSize m e))) [] =
      [(hAdj m e, perfectRoot (hAdj m e) ((leaves.drop m).take (adjacentSubtreeSize m e)))] :=
    joinStack_single _ _
  rw [hgoal, hloop, hsingle, List.drop_drop]
  rfl

/-- A full aligned block step, verification side: pushing the block's perfect
root at the implied height transforms the reference stack of m leaves into
that of m + size leaves. -/
theorem pushCheck_full_block {leaves : List MHash} {m e : Nat}
    (hme : m < e) (h64 : leaves.length < 2 ^ 64) (hspan : e - m < 2 ^ 64)
    (hfit : m + adjacentSubtreeSize m e ≤ leaves.length) :
    pushSubTree (trailingZeros64 (adjacentSubtreeSize m e))
        (perfectRoot (hAdj m e) ((leaves.drop m).take (adjacentSubtreeSize m e)))
        (specStack leaves m) =
      some (specStack leaves (m + adjacentSubtreeSize m e)) := by
  have hh63 : hAdj m e ≤ 63 := hAdj_le_63 hme hspan
  have htz : trailingZeros64 (adjacentSubtreeSize m e) = hAdj m e := by
    rw [adjacentSubtreeSize_eq]
    exact trailingZeros64_pow hh63
  have hdvd : 2 ^ hAdj m e ∣ m := adjacentSubtreeSize_dvd_index (by omega)
  have htop : topOK (hAdj m e) (specStack leaves m) := topOK_specStack (by omega) hdvd
  rw [htz, pushSubTree_of_topOK htop]
  congr 1
  have hblocklen : ((leaves.drop m).take (adjacentSubtreeSize m e)).length =
      adjacentSubtreeSize m e := by
    rw [List.length_take, List.length_drop]
    omega
  have hfull := pushLeafList_block (hAdj m e)
      ((leaves.drop m).take (adjacentSubtreeSize m e)) (specStack leaves m)
      (by rw [hblocklen, adjacentSubtreeSize_eq]) htop (specStack_chain leaves m)
  rw [← hfull]
  exact specStack_block leaves m (adjacentSubtreeSize m e)

/-- The gap walk: construction harvests exactly the aligned subtree roots of
the gap [m, e), and verification consumes exactly those roots, advancing the
reference stack from m to e leaves. -/
theorem gap_walk :
    ∀ (d m e : Nat) (leaves acc : List MHash), e - m ≤ d → m ≤ e →
      e ≤ leaves.length → leaves.length < 2 ^ 64 →
      ∃ g, consumeUntilGet (leaves.drop m) acc m e = (acc ++ g, leaves.drop e, e, none) ∧
        ∀ rest, consumeUntilCheck (specStack leaves m) (g ++ rest) m e =
          Except.ok (specStack leaves e, rest, e) := by
  intro d
  induction d with
  | zero =>
    intro m e leaves acc hd hme _ _
    have hm : m = e := by omega
    subst hm
    refine ⟨[], ?_, ?_⟩
    · rw [consumeUntilGet]
      simp
    · intro rest
      rw [consumeUntilCheck.eq_def]
      simp
  | succ d ih =>
    intro m e leaves acc hd hme hlen h64
    by_cases heq : m = e
    · subst heq
      refine ⟨[], ?_, ?_⟩
      · rw [consumeUntilGet]
        simp
      · intro rest
        rw [consumeUntilCheck.eq_def]
        simp
    · have hlt : m < e := by omega
      have hspan : e - m < 2 ^ 64 := by omega
      have hsize := adjacentSubtreeSize_le_diff hlt hspan
      have hpos := adjacentSubtreeSize_pos m e
      have hfit : m + adjacentSubtreeSize m e ≤ leaves.length := by omega
      obtain ⟨g', hg1, hg2⟩ := ih (m + adjacentSubtreeSize m e) e leaves
        (acc ++ [perfectRoot (hAdj m e) ((leaves.drop m).take (adjacentSubtreeSize m e))])
        (by omega) (by omega) hlen h64
      refine ⟨perfectRoot (hAdj m e) ((leaves.drop m).take (adjacentSubtreeSize m e)) :: g',
        ?_, ?_⟩
      · rw [consumeUntilGet]
        rw [if_neg heq, dif_neg (by omega)]
        show (match getSubtreeRootCached (leaves.drop m) (adjacentSubtreeSize m e) with
          | Except.error e => (acc, leaves.drop m, m, some e)
          | Except.ok (root?, src') => consumeUntilGet src'
              (acc ++ [root?.getD (MHash.leaf [])]) (m + adjacentSubtreeSize m e) e) = _
        rw [getCached_full_block hfit]
        show consumeUntilGet (leaves.drop (m + adjacentSubtreeSize m e))
            (acc ++ [perfectRoot (hAdj m e) ((leaves.drop m).take (adjacentSubtreeSize m e))])
            (m + adjacentSubtreeSize m e) e = _
        rw [hg1]
        simp
      · intro rest
        rw [consumeUntilCheck.eq_def]
        rw [if_neg heq]
        simp only [List.cons_append]
        show (if _hdead : e < m then Except.error MErr.invalidParam
          else
            match pushSubTree (trailingZeros64 (adjacentSubtreeSize m e))
                (perfectRoot (hAdj m e) ((leaves.drop m).take (adjacentSubtreeSize m e)))
                (specStack leaves m) with
            | none => Except.error MErr.pushErr
            | some t' => consumeUntilCheck t' (g' ++ rest) (m + adjacentSubtreeSize m e) e) = _
        rw [dif_neg (by omega)]
        rw [pushCheck_full_block hlt h64 hspan hfit]
        exact hg2 rest

theorem pushSubTree_zero (x : MHash) (s : Stack) :
    pushSubTree 0 x s = some (pushLeaf x s) :=
  pushSubTree_of_topOK (topOK_zero s)

theorem skipCached_ok {leaves : List MHash} {a b : Nat} (hab : a ≤ b)
    (hb : b ≤ leaves.length) :
    skipCached (leaves.drop a) (b - a) = Except.ok (leaves.drop b) := by
  unfold skipCached
  rw [if_neg (by rw [List.length_drop]; omega)]
  rw [List.drop_drop]
  congr 2
  omega

/-- The excluded-range walk, verification side: each claimed leaf hash is
popped and pushed at height 0, advancing the reference stack across the
range. -/
theorem pushRange_walk :
    ∀ (k a : Nat) (leaves restC : List MHash), a + k ≤ leaves.length →
      pushRangeLeaves (specStack leaves a) ((leaves.drop a).take k ++ restC) k =
        Except.ok (specStack leaves (a + k), restC) := by
  intro k
  induction k with
  | zero =>
    intro a leaves restC _
    simp [pushRangeLeaves]
  | succ k ih =>
    intro a leaves restC hak
    have ha : a < leaves.length := by omega
    rw [List.drop_eq_getElem_cons ha]
    show (match getLeafRootCached (leaves[a] :: ((leaves.drop (a + 1)).take k ++ restC)) with
      | Except.error e => Except.error e
      | Except.ok (x, rest) =>
        match pushSubTree 0 x (specStack leaves a) with
        | none => Except.error MErr.pushErr
        | some t' => pushRangeLeaves t' rest k) = _
    show (match pushSubTree 0 leaves[a] (specStack leaves a) with
      | none => Except.error MErr.pushErr
      | some t' => pushRangeLeaves t' ((leaves.drop (a + 1)).take k ++ restC) k) = _
    rw [pushSubTree_zero]
    rw [← specStack_succ leaves a ha]
    show pushRangeLeaves (specStack leaves (a + 1))
      ((leaves.drop (a + 1)).take k ++ restC) k = _
    rw [ih (a + 1) leaves restC (by omega)]
    have : a + 1 + k = a + (k + 1) := by omega
    rw [this]

/-- The right bound of the last range, or m when there is none. -/
def lastRight (m : Nat) : List SubTreeLimit → Nat
  | [] => m
  | r :: rs => lastRight r.right rs

/-- A contiguous slice [a, b) of the leaf roots. -/
def sliceLR (leaves : List MHash) (a b : Nat) : List MHash :=
  (leaves.drop a).take (b - a)

/-- The leaf hashes the verifier is given for the excluded ranges. -/
def claimedLeaves (limits : List SubTreeLimit) (leaves : List MHash) : List MHash :=
  limits.foldr (fun r acc => sliceLR leaves r.left r.right ++ acc) []

theorem claimedLeaves_cons (r : SubTreeLimit) (rs : List SubTreeLimit) (leaves : List MHash) :
    claimedLeaves (r :: rs) leaves = sliceLR leaves r.left r.right ++ claimedLeaves rs leaves :=
  rfl

theorem checkLimitList_eq_aux (limits : List SubTreeLimit) :
    checkLimitList limits = checkLimitListAux 0 limits := by
  cases limits with
  | nil => rfl
  | cons r rs =>
    show (if r.left < r.right then checkLimitListAux r.right rs else false) =
      (if r.left < r.right ∧ 0 ≤ r.left then checkLimitListAux r.right rs else false)
    by_cases h : r.left < r.right
    · rw [if_pos h, if_pos ⟨h, Nat.zero_le _⟩]
    · rw [if_neg h, if_neg (by tauto)]

theorem checkLimitListAux_cons {m : Nat} {r : SubTreeLimit} {rs : List SubTreeLimit}
    (h : checkLimitListAux m (r :: rs) = true) :
    r.left < r.right ∧ m ≤ r.left ∧ checkLimitListAux r.right rs = true := by
  by_cases hc : r.left < r.right ∧ m ≤ r.left
  · refine ⟨hc.1, hc.2, ?_⟩
    unfold checkLimitListAux at h
    rwa [if_pos hc] at h
  · unfold checkLimitListAux at h
    rw [if_neg hc] at h
    exact absurd h (by simp)

theorem lastRight_le :
    ∀ (limits : List SubTreeLimit) (m n : Nat), (∀ r ∈ limits, r.right ≤ n) → m ≤ n →
      lastRight m limits ≤ n := by
  intro limits
  induction limits with
  | nil => intro m n _ hm; exact hm
  | cons r rs ih =>
    intro m n hall _
    exact ih r.right n (fun q hq => hall q (by simp [hq])) (hall r (by simp))

theorem lastRight_ge :
    ∀ (limits : List SubTreeLimit) (m : Nat), checkLimitListAux m limits = true →
      m ≤ lastRight m limits := by
  intro limits
  induction limits with
  | nil => intro m _; exact le_refl m
  | cons r rs ih =>
    intro m hv
    obtain ⟨h1, h2, h3⟩ := checkLimitListAux_cons hv
    exact le_trans (by omega) (ih r.right h3)

/-- The range loop walk: construction collects the gap subtree roots and skips
each excluded range; verification consumes the same roots together with the
claimed leaf hashes; both end at the last range's right bound. -/
theorem loop_walk :
    ∀ (limits : List SubTreeLimit) (m : Nat) (leaves acc : List MHash),
      checkLimitListAux m limits = true → (∀ r ∈ limits, r.right ≤ leaves.length) →
      m ≤ leaves.length → leaves.length < 2 ^ 64 →
      ∃ g, getLimitLoopGet limits (leaves.drop m) acc m =
          (acc ++ g, leaves.drop (lastRight m limits), lastRight m limits, none) ∧
        ∀ restC restP,
          checkLimitLoop limits (specStack leaves m)
              (claimedLeaves limits leaves ++ restC) (g ++ restP) m =
            Except.ok (specStack leaves (lastRight m limits), restC, restP,
              lastRight m limits) := by
  intro limits
  induction limits with
  | nil =>
    intro m leaves acc _ _ _ _
    refine ⟨[], by simp [getLimitLoopGet, lastRight], ?_⟩
    intro restC restP
    simp [checkLimitLoop, lastRight, claimedLeaves]
  | cons r rs ih =>
    intro m leaves acc hvalid hbound hm h64
    obtain ⟨hlr, hml, hvalid'⟩ := checkLimitListAux_cons hvalid
    have hrlen : r.right ≤ leaves.length := hbound r (by simp)
    have hllen : r.left ≤ leaves.length := by omega
    obtain ⟨g1, hc1, hv1⟩ := gap_walk (r.left - m) m r.left leaves acc (le_refl _)
      hml hllen h64
    obtain ⟨g2, hc2, hv2⟩ := ih r.right leaves (acc ++ g1) hvalid'
      (fun q hq => hbound q (by simp [hq])) hrlen h64
    have hidx : r.left + (r.right - r.left) = r.right := by omega
    refine ⟨g1 ++ g2, ?_, ?_⟩
    · show (match consumeUntilGet (leaves.drop m) acc m r.left with
        | (acc1, src1, li1, some e) => (acc1, src1, li1, some e)
        | (acc1, src1, li1, none) =>
          match skipCached src1 (r.right - r.left) with
          | Except.error e => (acc1, src1, li1, some e)
          | Except.ok src2 => getLimitLoopGet rs src2 acc1 (li1 + (r.right - r.left))) = _
      rw [hc1]
      show (match skipCached (leaves.drop r.left) (r.right - r.left) with
        | Except.error e => (acc ++ g1, leaves.drop r.left, r.left, some e)
        | Except.ok src2 => getLimitLoopGet rs src2 (acc ++ g1)
            (r.left + (r.right - r.left))) = _
      rw [skipCached_ok (by omega) hrlen, hidx]
      show getLimitLoopGet rs (leaves.drop r.right) (acc ++ g1) r.right = _
      rw [hc2]
      simp [lastRight]
    · intro restC restP
      have hassoc : (g1 ++ g2) ++ restP = g1 ++ (g2 ++ restP) := by simp
      show (match consumeUntilCheck (specStack leaves m) ((g1 ++ g2) ++ restP) m r.left with
        | Except.error e => Except.error e
        | Except.ok (t1, proof1, li1) =>
          match pushRangeLeaves t1 (claimedLeaves (r :: rs) leaves ++ restC)
              (r.right - r.left) with
          | Except.error e => Except.error e
          | Except.ok (t2, claimed2) =>
            checkLimitLoop rs t2 claimed2 proof1 (li1 + (r.right - r.left))) = _
      rw [hassoc, hv1 (g2 ++ restP)]
      show (match pushRangeLeaves (specStack leaves r.left)
          (claimedLeaves (r :: rs) leaves ++ restC) (r.right - r.left) with
        | Except.error e => Except.error e
        | Except.ok (t2, claimed2) =>
          checkLimitLoop rs t2 claimed2 (g2 ++ restP) (r.left + (r.right - r.left))) = _
      have hclaimed : claimedLeaves (r :: rs) leaves ++ restC =
          (leaves.drop r.left).take (r.right - r.left) ++ (claimedLeaves rs leaves ++ restC) := by
        rw [claimedLeaves_cons]
        simp [sliceLR]
      rw [hclaimed, pushRange_walk (r.right - r.left) r.left leaves _ (by omega), hidx]
      exact hv2 restC restP

theorem consumeUntilCheck_nilProof (t : Stack) (a b : Nat) :
    consumeUntilCheck t [] a b = Except.ok (t, [], a) := by
  rw [consumeUntilCheck.eq_def]
  by_cases h : a = b
  · rw [if_pos h]
  · rw [if_neg h]

theorem consumeUntilGet_nilSrc (acc : List MHash) (a b : Nat) (hab : a ≤ b) :
    consumeUntilGet [] acc a b =
      (acc, [], a, if a = b then none else some MErr.eof) := by
  rw [consumeUntilGet]
  by_cases h : a = b
  · rw [if_pos h, if_pos h]
  · rw [if_neg h, dif_neg (by omega), if_neg h]
    rfl

theorem topOK_headH {h : Nat} {s : Stack} (hne : s ≠ []) (ht : topOK h s) :
    h ≤ headH s := by
  cases s with
  | nil => exact absurd rfl hne
  | cons p rest =>
    obtain ⟨h0, x0⟩ := p
    exact ht

/-- The final drain walk: construction hashes full aligned blocks until the
remaining leaves form a short boundary block (or run out), swallowing the
final io.EOF; verification pushes the same roots and reconstructs a tree
whose root equals the root of the full leaf sequence. -/
theorem drain_walk :
    ∀ (d m : Nat) (leaves acc : List MHash), leaves.length - m ≤ d → 0 < m →
      m ≤ leaves.length → leaves.length < 2 ^ 64 →
      ∃ g mf ef, consumeUntilGet (leaves.drop m) acc m U64MAX = (acc ++ g, [], mf, ef) ∧
        (ef = none ∨ ef = some MErr.eof) ∧
        ∃ t2 m2, consumeUntilCheck (specStack leaves m) g m U64MAX =
            Except.ok (t2, [], m2) ∧
          treeRoot t2 = treeRoot (specStack leaves leaves.length) := by
  intro d
  induction d with
  | zero =>
    intro m leaves acc hd h0 hm h64
    have hmlen : m = leaves.length := by omega
    have hdrop : leaves.drop m = [] := List.drop_eq_nil_of_le (by omega)
    rw [hdrop]
    have hmU : m ≤ U64MAX := by unfold U64MAX; omega
    refine ⟨[], m, if m = U64MAX then none else some MErr.eof, ?_, ?_, ?_⟩
    · rw [consumeUntilGet_nilSrc acc m U64MAX hmU]
      simp
    · by_cases h : m = U64MAX
      · rw [if_pos h]; exact Or.inl rfl
      · rw [if_neg h]; exact Or.inr rfl
    · refine ⟨specStack leaves m, m, consumeUntilCheck_nilProof _ _ _, ?_⟩
      rw [hmlen]
  | succ d ih =>
    intro m leaves acc hd h0 hm h64
    by_cases hmlen : m = leaves.length
    · have hdrop : leaves.drop m = [] := List.drop_eq_nil_of_le (by omega)
      rw [hdrop]
      have hmU : m ≤ U64MAX := by unfold U64MAX; omega
      refine ⟨[], m, if m = U64MAX then none else some MErr.eof, ?_, ?_, ?_⟩
      · rw [consumeUntilGet_nilSrc acc m U64MAX hmU]
        simp
      · by_cases h : m = U64MAX
        · rw [if_pos h]; exact Or.inl rfl
        · rw [if_neg h]; exact Or.inr rfl
      · refine ⟨specStack leaves m, m, consumeUntilCheck_nilProof _ _ _, ?_⟩
        rw [hmlen]
    · have hmlt : m < leaves.length := by omega
      have hmU : m < U64MAX := by unfold U64MAX; omega
      have hspan : U64MAX - m < 2 ^ 64 := by unfold U64MAX; omega
      have hpos := adjacentSubtreeSize_pos m U64MAX
      have hsize := adjacentSubtreeSize_le_diff hmU hspan
      have hh63 : hAdj m U64MAX ≤ 63 := hAdj_le_63 hmU hspan
      have htz : trailingZeros64 (adjacentSubtreeSize m U64MAX) = hAdj m U64MAX := by
        rw [adjacentSubtreeSize_eq]
        exact trailingZeros64_pow hh63
      by_cases hfit : m + adjacentSubtreeSize m U64MAX ≤ leaves.length
      · -- full aligned block
        obtain ⟨g', mf, ef, hg1, hef, t2, m2, hg2, hroot⟩ :=
          ih (m + adjacentSubtreeSize m U64MAX) leaves
            (acc ++ [perfectRoot (hAdj m U64MAX)
              ((leaves.drop m).take (adjacentSubtreeSize m U64MAX))])
            (by omega) (by omega) (by omega) h64
        refine ⟨perfectRoot (hAdj m U64MAX)
            ((leaves.drop m).take (adjacentSubtreeSize m U64MAX)) :: g', mf, ef, ?_, hef,
          t2, m2, ?_, hroot⟩
        · rw [consumeUntilGet]
          rw [if_neg (by omega), dif_neg (by omega)]
          show (match getSubtreeRootCached (leaves.drop m) (adjacentSubtreeSize m U64MAX) with
            | Except.error e => (acc, leaves.drop m, m, some e)
            | Except.ok (root?, src') => consumeUntilGet src'
                (acc ++ [root?.getD (MHash.leaf [])]) (m + adjacentSubtreeSize m U64MAX)
                U64MAX) = _
          rw [getCached_full_block hfit]
          show consumeUntilGet (leaves.drop (m + adjacentSubtreeSize m U64MAX))
              (acc ++ [perfectRoot (hAdj m U64MAX)
                ((leaves.drop m).take (adjacentSubtreeSize m U64MAX))])
              (m + adjacentSubtreeSize m U64MAX) U64MAX = _
          rw [hg1]
          simp
        · rw [consumeUntilCheck.eq_def]
          rw [if_neg (by omega)]
          show (if _hdead : U64MAX < m then Except.error MErr.invalidParam
            else
              match pushSubTree (trailingZeros64 (adjacentSubtreeSize m U64MAX))
                  (perfectRoot (hAdj m U64MAX)
                    ((leaves.drop m).take (adjacentSubtreeSize m U64MAX)))
                  (specStack leaves m) with
              | none => Except.error MErr.pushErr
              | some t' => consumeUntilCheck t' g' (m + adjacentSubtreeSize m U64MAX)
                  U64MAX) = _
          rw [dif_neg (by omega)]
          rw [pushCheck_full_block hmU h64 hspan hfit]
          exact hg2
      · -- short boundary block
        push_neg at hfit
        have hk : leaves.length - m < adjacentSubtreeSize m U64MAX := by omega
        have hdropne : leaves.drop m ≠ [] := by
          intro hnil
          have := congrArg List.length hnil
          rw [List.length_drop] at this
          simp at this
          omega
        obtain ⟨R, hR⟩ : ∃ R, treeRoot (pushLeafList (leaves.drop m) []) = some R := by
          cases ht : treeRoot (pushLeafList (leaves.drop m) []) with
          | none =>
            exfalso
            have hne := pushLeafList_ne_nil (leaves.drop m) [] (Or.inl hdropne)
            cases hp : pushLeafList (leaves.drop m) [] with
            | nil => exact hne hp
            | cons q qs =>
              rw [hp] at ht
              exact absurd ht (by simp [treeRoot])
          | some r => exact ⟨r, rfl⟩
        have hgetshort : getSubtreeRootCached (leaves.drop m) (adjacentSubtreeSize m U64MAX) =
            Except.ok (some R, []) := by
          obtain ⟨y, ys, hy⟩ : ∃ y ys, leaves.drop m = y :: ys := by
            cases hdd : leaves.drop m with
            | nil => exact absurd hdd hdropne
            | cons y ys => exact ⟨y, ys, rfl⟩
          have hloop := pushCachedLoop_spec (adjacentSubtreeSize m U64MAX) (leaves.drop m) []
          have hmin : min (adjacentSubtreeSize m U64MAX) (leaves.drop m).length =
              (leaves.drop m).length := by
            rw [List.length_drop]
            omega
          rw [hmin, List.take_length] at hloop
          have hgoal : getSubtreeRootCached (leaves.drop m) (adjacentSubtreeSize m U64MAX) =
              Except.ok
                (treeRoot (pushCachedLoop (adjacentSubtreeSize m U64MAX)
                  (leaves.drop m) []).1,
                (pushCachedLoop (adjacentSubtreeSize m U64MAX) (leaves.drop m) []).2) := by
            rw [hy]
            rfl
          rw [hgoal, hloop]
          have hdrop2 : (leaves.drop m).drop (adjacentSubtreeSize m U64MAX) = [] := by
            rw [List.drop_drop]
            exact List.drop_eq_nil_of_le (by omega)
          rw [hdrop2, hR]
        have hdvd : 2 ^ hAdj m U64MAX ∣ m := adjacentSubtreeSize_dvd_index (by omega)
        have htop : topOK (hAdj m U64MAX) (specStack leaves m) :=
          topOK_specStack (by omega) hdvd
        have hsne : specStack leaves m ≠ [] := specStack_ne_nil leaves m h0 (by omega)
        refine ⟨[R], m + adjacentSubtreeSize m U64MAX,
          if m + adjacentSubtreeSize m U64MAX = U64MAX then none else some MErr.eof,
          ?_, ?_, ?_⟩
        · rw [consumeUntilGet]
          rw [if_neg (by omega), dif_neg (by omega)]
          show (match getSubtreeRootCached (leaves.drop m) (adjacentSubtreeSize m U64MAX) with
            | Except.error e => (acc, leaves.drop m, m, some e)
            | Except.ok (root?, src') => consumeUntilGet src'
                (acc ++ [root?.getD (MHash.leaf [])]) (m + adjacentSubtreeSize m U64MAX)
                U64MAX) = _
          rw [hgetshort]
          show consumeUntilGet [] (acc ++ [R]) (m + adjacentSubtreeSize m U64MAX) U64MAX = _
          rw [consumeUntilGet_nilSrc _ _ _ (by omega)]
        · by_cases h : m + adjacentSubtreeSize m U64MAX = U64MAX
          · rw [if_pos h]; exact Or.inl rfl
          · rw [if_neg h]; exact Or.inr rfl
        · refine ⟨pushSub (hAdj m U64MAX) R (specStack leaves m),
            m + adjacentSubtreeSize m U64MAX, ?_, ?_⟩
          · rw [consumeUntilCheck.eq_def]
            rw [if_neg (by omega)]
            show (if _hdead : U64MAX < m then Except.error MErr.invalidParam
              else
                match pushSubTree (trailingZeros64 (adjacentSubtreeSize m U64MAX)) R
                    (specStack leaves m) with
                | none => Except.error MErr.pushErr
                | some t' => consumeUntilCheck t' [] (m + adjacentSubtreeSize m U64MAX)
                    U64MAX) = _
            rw [dif_neg (by omega), htz, pushSubTree_of_topOK htop]
            exact consumeUntilCheck_nilProof _ _ _
          · have hheadH : 2 ^ hAdj m U64MAX ≤ 2 ^ headH (specStack leaves m) :=
              Nat.pow_le_pow_right (by norm_num) (topOK_headH hsne htop)
            have hsmall : (leaves.drop m).length < 2 ^ headH (specStack leaves m) := by
              rw [List.length_drop]
              rw [adjacentSubtreeSize_eq] at hk
              omega
            have hshort := treeRoot_short_block (hAdj m U64MAX) (leaves.drop m)
              (specStack leaves m) hsne hdropne hsmall R hR
            rw [hshort]
            have hfull : pushLeafList (leaves.drop m) (specStack leaves m) =
                specStack leaves (m + (leaves.length - m)) := by
              have := specStack_block leaves m (leaves.length - m)
              rw [← this]
              congr 1
              rw [List.take_of_length_le]
              rw [List.length_drop]
            rw [hfull]
            congr 2
            omega

theorem specStack_full (leaves : List MHash) :
    specStack leaves leaves.length = pushLeafList leaves [] := by
  unfold specStack
  rw [List.take_length]

/-- C1: Round-trip of the diff-proof engine.  For every leaf sequence and
every valid (sorted, disjoint) list of exclusion ranges within it, verifying
the proof produced by getLimitStorageProof together with the claimed leaf
hashes of the excluded ranges against the Merkle root of the full leaf
sequence returns true. -/
theorem C1_diff_proof_roundtrip (leaves : List MHash) (limits : List SubTreeLimit)
    (h64 : leaves.length < 2 ^ 64)
    (hvalid : checkLimitList limits = true)
    (hbound : ∀ r ∈ limits, r.right ≤ leaves.length)
    (root : MHash) (hroot : cachedTreeRoot leaves = some root) :
    (getLimitStorageProof limits leaves).err = none ∧
      checkLimitStorageProof (claimedLeaves limits leaves) limits
        (getLimitStorageProof limits leaves).proof root = Except.ok true := by
  cases limits with
  | nil => exact ⟨rfl, rfl⟩
  | cons r rs =>
    have hvalidaux : checkLimitListAux 0 (r :: rs) = true := by
      rw [← checkLimitList_eq_aux]
      exact hvalid
    have hcons := checkLimitListAux_cons hvalidaux
    obtain ⟨g, hc, hv⟩ := loop_walk (r :: rs) 0 leaves [] hvalidaux hbound
      (Nat.zero_le _) h64
    rw [List.drop_zero] at hc
    set L := lastRight 0 (r :: rs) with hL
    have hL1 : 1 ≤ L := by
      have h1 : r.right ≤ lastRight r.right rs := lastRight_ge rs r.right hcons.2.2
      have h2 : lastRight 0 (r :: rs) = lastRight r.right rs := rfl
      omega
    have hLlen : L ≤ leaves.length := lastRight_le (r :: rs) 0 leaves.length hbound
      (Nat.zero_le _)
    obtain ⟨g2, mf, ef, hdc, hef, t2, m2, hvc, hroot2⟩ :=
      drain_walk (leaves.length - L) L leaves g (le_refl _) (by omega) hLlen h64
    have hconstruct : getLimitStorageProof (r :: rs) leaves = ⟨g ++ g2, none, []⟩ := by
      simp only [getLimitStorageProof]
      rw [if_pos hvalid, hc]
      show (match consumeUntilGet (leaves.drop L) g L U64MAX with
        | (acc2, src2, _, some MErr.eof) => (⟨acc2, none, src2⟩ : GLSPResult)
        | (acc2, src2, _, some e) => ⟨acc2, some e, src2⟩
        | (acc2, src2, _, none) => ⟨acc2, none, src2⟩) = _
      rw [hdc]
      rcases hef with hef | hef
      · rw [hef]
      · rw [hef]
    rw [hconstruct]
    refine ⟨rfl, ?_⟩
    show (if checkLimitList (r :: rs) then
      match checkLimitLoop (r :: rs) [] (claimedLeaves (r :: rs) leaves) (g ++ g2) 0 with
      | Except.error e => Except.error e
      | Except.ok (t1, _, proof1, li1) =>
        match consumeUntilCheck t1 proof1 li1 U64MAX with
        | Except.error e => Except.error e
        | Except.ok (t3, _, _) => Except.ok (decide (treeRoot t3 = some root))
      else Except.error MErr.invalidParam) = _
    rw [if_pos hvalid]
    have hv0 := hv [] g2
    rw [List.append_nil] at hv0
    have hspec0 : specStack leaves 0 = [] := specStack_zero leaves
    rw [← hspec0, hv0]
    show (match consumeUntilCheck (specStack leaves L) g2 L U64MAX with
      | Except.error e => Except.error e
      | Except.ok (t3, _, _) => Except.ok (decide (treeRoot t3 = some root))) = _
    rw [hvc]
    show Except.ok (decide (treeRoot t2 = some root)) = Except.ok true
    rw [hroot2, specStack_full]
    have : treeRoot (pushLeafList leaves []) = some root := hroot
    rw [this]
    simp

theorem cachedTreeRoot_single (x : MHash) : cachedTreeRoot [x] = some x := by
  show treeRoot (joinStack [(0, x)]) = some x
  rw [joinStack_single]
  rfl

/-- Witness for C1 at one leaf with the single exclusion range [0, 1). -/
theorem C1_diff_proof_roundtrip_witness :
    ([MHash.leaf []].length < 2 ^ 64 ∧ checkLimitList [⟨0, 1⟩] = true ∧
        (∀ r ∈ [(⟨0, 1⟩ : SubTreeLimit)], r.right ≤ [MHash.leaf []].length) ∧
        cachedTreeRoot [MHash.leaf []] = some (MHash.leaf [])) ∧
      (getLimitStorageProof [⟨0, 1⟩] [MHash.leaf []]).err = none ∧
        checkLimitStorageProof (claimedLeaves [⟨0, 1⟩] [MHash.leaf []]) [⟨0, 1⟩]
          (getLimitStorageProof [⟨0, 1⟩] [MHash.leaf []]).proof (MHash.leaf []) =
          Except.ok true :=
  ⟨⟨by decide, by decide, by decide, cachedTreeRoot_single _⟩,
    C1_diff_proof_roundtrip [MHash.leaf []] [⟨0, 1⟩] (by decide) (by decide) (by decide)
      (MHash.leaf []) (cachedTreeRoot_single _)⟩

/-- C2: adjacentSubtreeSize always returns a power of two that is no larger
than right - left and aligned to left (it divides the largest power of two
dividing left when left > 0), and iterating leafIndex += adjacentSubtreeSize
from left terminates and exactly covers [left, right) with aligned subtrees. -/
theorem C2_adjacentSubtreeSize_cover (left right : Nat) (h1 : left < right)
    (h2 : right < 2 ^ 64) :
    (∃ k, adjacentSubtreeSize left right = 2 ^ k) ∧
      adjacentSubtreeSize left right ≤ right - left ∧
      (0 < left → adjacentSubtreeSize left right ∣ 2 ^ trailingZeros64 left) ∧
      ((coverSteps left right).flatMap fun p => List.range' p.1 p.2) =
        List.range' left (right - left) ∧
      ∀ p ∈ coverSteps left right, (∃ k, p.2 = 2 ^ k) ∧ p.2 ∣ p.1 := by
  obtain ⟨hcov, hal⟩ := coverSteps_spec (right - left) left right (le_refl _) h2
  refine ⟨⟨hAdj left right, adjacentSubtreeSize_eq left right⟩,
    adjacentSubtreeSize_le_diff h1 (by omega), ?_, hcov, ?_⟩
  · intro _
    rw [adjacentSubtreeSize_eq]
    exact pow_dvd_pow 2 (hAdj_le_tz left right)
  · intro p hp
    exact ⟨(hal p hp).1, (hal p hp).2.1⟩

/-- Witness for C2 at left = 2, right = 7. -/
theorem C2_adjacentSubtreeSize_cover_witness :
    (2 < 7 ∧ 7 < 2 ^ 64) ∧
      ((∃ k, adjacentSubtreeSize 2 7 = 2 ^ k) ∧
        adjacentSubtreeSize 2 7 ≤ 7 - 2 ∧
        (0 < 2 → adjacentSubtreeSize 2 7 ∣ 2 ^ trailingZeros64 2) ∧
        ((coverSteps 2 7).flatMap fun p => List.range' p.1 p.2) =
          List.range' 2 (7 - 2) ∧
        ∀ p ∈ coverSteps 2 7, (∃ k, p.2 = 2 ^ k) ∧ p.2 ∣ p.1) :=
  ⟨⟨by decide, by decide⟩, C2_adjacentSubtreeSize_cover 2 7 (by decide) (by decide)⟩

/-- Loop characterization for the streaming source over a stream made of whole
leaves: each iteration reads one leaf chunk; the loop stops early (without a
push) when the stream is exhausted. -/
theorem readerLoop_spec (leafSize : Nat) (hls : 0 < leafSize) :
    ∀ (n : Nat) (chunks : List (List Nat)) (t : Stack),
      (∀ c ∈ chunks, c.length = leafSize) →
      readerLoop leafSize n chunks.flatten t =
        (pushLeafList ((chunks.take n).map MHash.leaf) t, (chunks.drop n).flatten) := by
  intro n
  induction n with
  | zero =>
    intro chunks t _
    simp [readerLoop, pushLeafList_nil]
  | succ n ih =>
    intro chunks t hall
    cases chunks with
    | nil =>
      show (let chunk := ([] : List Nat).take leafSize
        let rest := ([] : List Nat).drop leafSize
        let t' := if 0 < chunk.length then pushLeaf (MHash.leaf chunk) t else t
        if chunk.length < leafSize then (t', rest)
        else readerLoop leafSize n rest t') = _
      simp [pushLeafList_nil, hls]
    | cons c cs =>
      have hc : c.length = leafSize := hall c (by simp)
      have htake : (c :: cs).flatten.take leafSize = c := by
        show (c ++ cs.flatten).take leafSize = c
        rw [← hc]
        exact List.take_left c cs.flatten
      have hdrop : (c :: cs).flatten.drop leafSize = cs.flatten := by
        show (c ++ cs.flatten).drop leafSize = cs.flatten
        rw [← hc]
        exact List.drop_left c cs.flatten
      show (let chunk := (c :: cs).flatten.take leafSize
        let rest := (c :: cs).flatten.drop leafSize
        let t' := if 0 < chunk.length then pushLeaf (MHash.leaf chunk) t else t
        if chunk.length < leafSize then (t', rest)
        else readerLoop leafSize n rest t') = _
      rw [htake, hdrop]
      show (if c.length < leafSize then
          (if 0 < c.length then pushLeaf (MHash.leaf c) t else t, cs.flatten)
        else readerLoop leafSize n cs.flatten
          (if 0 < c.length then pushLeaf (MHash.leaf c) t else t)) = _
      rw [if_neg (by omega), if_pos (by omega)]
      rw [ih cs (pushLeaf (MHash.leaf c) t) (fun q hq => hall q (by simp [hq]))]
      rfl

/-- Counterexample to C3 as stated: for a zero-leaf request the streaming
source fails with the no-more-leaves error even though a leaf remains. -/
theorem C3_counterexample :
    getSubtreeRootReader 1 [7] 0 = Except.error MErr.eof ∧ ([7] : List Nat) ≠ [] :=
  ⟨rfl, by decide⟩

/-- C3 (amended: for every positive requested leaf count n ≥ 1): for both
leaf-source variants, requesting the root of the next n leaves fails with the
no-more-leaves error exactly when zero leaves remain, and when some but fewer
than n leaves remain it succeeds and returns the root of the short boundary
subtree formed by the remaining leaves. -/
theorem C3_get_subtree_root_boundary (n : Nat) (hn : 1 ≤ n)
    (src : List MHash) (leafSize : Nat) (hls : 0 < leafSize)
    (chunks : List (List Nat)) (hchunks : ∀ c ∈ chunks, c.length = leafSize) :
    ((∃ e, getSubtreeRootCached src n = Except.error e) ↔ src = []) ∧
      (src = [] → getSubtreeRootCached src n = Except.error MErr.eof) ∧
      (src ≠ [] → src.length < n →
        getSubtreeRootCached src n = Except.ok (cachedTreeRoot src, [])) ∧
      ((∃ e, getSubtreeRootReader leafSize chunks.flatten n = Except.error e) ↔
        chunks = []) ∧
      (chunks = [] → getSubtreeRootReader leafSize chunks.flatten n =
        Except.error MErr.eof) ∧
      (chunks ≠ [] → chunks.length < n →
        ∃ r, cachedTreeRoot (chunks.map MHash.leaf) = some r ∧
          getSubtreeRootReader leafSize chunks.flatten n = Except.ok (r, [])) := by
  have hcached_ne : src ≠ [] → ∀ e, getSubtreeRootCached src n ≠ Except.error e := by
    intro hne e
    cases src with
    | nil => exact absurd rfl hne
    | cons x xs =>
      show (let p := pushCachedLoop n (x :: xs) []
        Except.ok (treeRoot p.1, p.2)) ≠ _
      simp
  have hreader := readerLoop_spec leafSize hls n chunks [] hchunks
  have hreader_nil : getSubtreeRootReader leafSize ([] : List (List Nat)).flatten n =
      Except.error MErr.eof := by
    have h0 := readerLoop_spec leafSize hls n [] [] (by simp)
    unfold getSubtreeRootReader
    rw [h0]
    simp [pushLeafList_nil, treeRoot]
  have hreader_ne : chunks ≠ [] → ∀ e,
      getSubtreeRootReader leafSize chunks.flatten n ≠ Except.error e := by
    intro hne e
    cases chunks with
    | nil => exact absurd rfl hne
    | cons c cs =>
      unfold getSubtreeRootReader
      rw [readerLoop_spec leafSize hls n (c :: cs) [] hchunks]
      have htne : (((c :: cs).take n).map MHash.leaf) ≠ [] := by
        cases n with
        | zero => omega
        | succ n => simp
      have hpne := pushLeafList_ne_nil (((c :: cs).take n).map MHash.leaf) [] (Or.inl htne)
      cases hp : pushLeafList (((c :: cs).take n).map MHash.leaf) [] with
      | nil => exact absurd hp hpne
      | cons q qs =>
        simp [treeRoot]
  refine ⟨?_, ?_, ?_, ?_, ?_, ?_⟩
  · constructor
    · intro ⟨e, he⟩
      by_contra hne
      exact hcached_ne hne e he
    · intro hnil
      subst hnil
      exact ⟨MErr.eof, rfl⟩
  · intro hnil
    subst hnil
    rfl
  · intro hne hshort
    cases src with
    | nil => exact absurd rfl hne
    | cons x xs =>
      show (let p := pushCachedLoop n (x :: xs) []
        Except.ok (treeRoot p.1, p.2)) = _
      rw [pushCachedLoop_spec]
      have hmin : min n (x :: xs).length = (x :: xs).length := by omega
      rw [hmin, List.take_length]
      have hdrop : (x :: xs).drop n = [] := List.drop_eq_nil_of_le (by omega)
      rw [hdrop]
      rfl
  · constructor
    · intro ⟨e, he⟩
      by_contra hne
      exact hreader_ne hne e he
    · intro hnil
      subst hnil
      exact ⟨MErr.eof, hreader_nil⟩
  · intro hnil
    subst hnil
    exact hreader_nil
  · intro hne hshort
    unfold getSubtreeRootReader
    rw [hreader]
    have htake : chunks.take n = chunks := List.take_of_length_le (by omega)
    have hdrop : chunks.drop n = [] := List.drop_eq_nil_of_le (by omega)
    rw [htake, hdrop]
    have hmapne : chunks.map MHash.leaf ≠ [] := by
      cases chunks with
      | nil => exact absurd rfl hne
      | cons c cs => simp
    have hpne := pushLeafList_ne_nil (chunks.map MHash.leaf) [] (Or.inl hmapne)
    cases hp : pushLeafList (chunks.map MHash.leaf) [] with
    | nil => exact absurd hp hpne
    | cons q qs =>
      refine ⟨collapse q.2 qs, ?_, ?_⟩
      · unfold cachedTreeRoot
        rw [hp]
        cases q with
        | mk qh qx => rfl
      · cases q with
        | mk qh qx => rfl

/-- Witness for the amended C3 at n = 2 with one remaining leaf in each
variant. -/
theorem C3_get_subtree_root_boundary_witness :
    (1 ≤ 2 ∧ 0 < 1 ∧ (∀ c ∈ [[(7 : Nat)]], c.length = 1)) ∧
      (((∃ e, getSubtreeRootCached [MHash.leaf []] 2 = Except.error e) ↔
          [MHash.leaf []] = []) ∧
        ([MHash.leaf []] = ([] : List MHash) →
          getSubtreeRootCached [MHash.leaf []] 2 = Except.error MErr.eof) ∧
        ([MHash.leaf []] ≠ ([] : List MHash) → [MHash.leaf []].length < 2 →
          getSubtreeRootCached [MHash.leaf []] 2 =
            Except.ok (cachedTreeRoot [MHash.leaf []], [])) ∧
        ((∃ e, getSubtreeRootReader 1 [[(7 : Nat)]].flatten 2 = Except.error e) ↔
          [[(7 : Nat)]] = []) ∧
        ([[(7 : Nat)]] = ([] : List (List Nat)) →
          getSubtreeRootReader 1 [[(7 : Nat)]].flatten 2 = Except.error MErr.eof) ∧
        ([[(7 : Nat)]] ≠ ([] : List (List Nat)) → [[(7 : Nat)]].length < 2 →
          ∃ r, cachedTreeRoot ([[(7 : Nat)]].map MHash.leaf) = some r ∧
            getSubtreeRootReader 1 [[(7 : Nat)]].flatten 2 = Except.ok (r, []))) :=
  ⟨⟨by decide, by decide, by decide⟩,
    C3_get_subtree_root_boundary 2 (by decide) [MHash.leaf []] 1 (by decide)
      [[(7 : Nat)]] (by decide)⟩

/-- C4: for every exclusion-range list that fails validation, diff-proof
construction returns the invalid-parameter error without consuming anything
from the leaf source, which is returned unchanged. -/
theorem C4_invalid_limits_source_untouched (limits : List SubTreeLimit) (src : List MHash)
    (hinv : checkLimitList limits = false) :
    getLimitStorageProof limits src = ⟨[], some MErr.invalidParam, src⟩ := by
  cases limits with
  | nil =>
    rw [checkLimitList] at hinv
    exact absurd hinv (by simp)
  | cons r rs =>
    simp only [getLimitStorageProof]
    rw [if_neg (by rw [hinv]; simp)]

/-- Witness for C4 at the reversed range [2, 1). -/
theorem C4_invalid_limits_source_untouched_witness :
    checkLimitList [⟨2, 1⟩] = false ∧
      getLimitStorageProof [⟨2, 1⟩] [MHash.leaf []] =
        ⟨[], some MErr.invalidParam, [MHash.leaf []]⟩ :=
  ⟨by decide, C4_invalid_limits_source_untouched [⟨2, 1⟩] [MHash.leaf []] (by decide)⟩

/-- storage.SectorSize.  Modelled from the spec: the fixed 4 MiB sector size
(the constant itself is declared outside the provided sources). -/
def SectorSize : Nat := 4194304

/-- storage.SegmentSize.  Modelled from the spec: the fixed sub-sector segment
size used as range-proof granularity. -/
def SegmentSize : Nat := 64

/-- storage.HashSize.  Modelled from the spec: the byte size of a hash. -/
def HashSize : Nat := 32

/-- types.DxcoinCharge: an address together with a coin value. -/
structure DxcoinCharge where
  address : Nat
  value : Int
deriving DecidableEq, Repr

instance : Inhabited DxcoinCharge := ⟨⟨0, 0⟩⟩

/-- types.StorageContractRevision (the fields used by the embedded code). -/
structure StorageContractRevision where
  parentID : Nat
  newRevisionNumber : Nat
  newFileSize : Nat
  newFileMerkleRoot : MHash
  newWindowStart : Nat
  newWindowEnd : Nat
  newValidProofOutputs : List DxcoinCharge
  newMissedProofOutputs : List DxcoinCharge
  signatures : List (List Nat)
deriving DecidableEq, Repr

/-- storage.UploadActionAppend, the only handled upload action type. -/
def UploadActionAppend : Nat := 0

/-- storage.UploadAction. -/
structure UploadAction where
  actType : Nat
  data : List Nat
deriving DecidableEq, Repr

/-- storage.UploadRequest (the fields used by the embedded code). -/
structure UploadRequest where
  storageContractID : Nat
  actions : List UploadAction
  newRevisionNumber : Nat
  newValidProofValues : List Int
  newMissedProofValues : List Int
deriving DecidableEq, Repr

/-- uploadNegotiationData (the fields used by the embedded code); the
sectors-changed map is modelled as the list of inserted indices. -/
structure UploadNegotiationData where
  newRoots : List MHash
  sectorsChanged : List Nat
  bandwidthRevenue : Int
  sectorGained : List MHash
  gainedSectorData : List (List Nat)
  newMerkleRoot : MHash
deriving DecidableEq, Repr

/-- Split sector data into SegmentSize chunks. -/
def segmentChunks (data : List Nat) : List (List Nat) :=
  if data = [] then []
  else data.take SegmentSize :: segmentChunks (data.drop SegmentSize)
termination_by data.length
decreasing_by
  have hpos : 0 < data.length := List.length_pos.mpr (by assumption)
  rw [List.length_drop]
  unfold SegmentSize
  omega

/-- Modelled from the spec: Sha256MerkleTreeRoot (crypto/merkle, not under the
provided sources) computes the Merkle root of sector data over SegmentSize
leaves. -/
def Sha256MerkleTreeRoot (data : List Nat) : MHash :=
  (treeRoot (pushLeafList ((segmentChunks data).map MHash.leaf) [])).getD (MHash.leaf [])

/-- Modelled from the spec: Sha256CachedTreeRoot2 (crypto/merkle, not under
the provided sources) computes the Merkle root over precomputed leaf roots. -/
def Sha256CachedTreeRoot2 (roots : List MHash) : MHash :=
  (cachedTreeRoot roots).getD (MHash.leaf [])

/-- handleUploadAppendType (contractuploadhandler.go): append the new sector
root, record the gained sector, mark the sector index changed, and accrue
bandwidth revenue. -/
def handleUploadAppendType (action : UploadAction) (nd : UploadNegotiationData)
    (uploadBandwidthPrice : Int) : UploadNegotiationData :=
  let newRoot := Sha256MerkleTreeRoot action.data
  { nd with
    newRoots := nd.newRoots ++ [newRoot]
    sectorGained := nd.sectorGained ++ [newRoot]
    gainedSectorData := nd.gainedSectorData ++ [action.data]
    sectorsChanged := nd.sectorsChanged ++ [(nd.newRoots ++ [newRoot]).length - 1]
    bandwidthRevenue := nd.bandwidthRevenue + uploadBandwidthPrice * (SectorSize : Int) }

/-- The action loop of parseAndHandleUploadActions: only append actions are
accepted. -/
def handleActions (price : Int) : List UploadAction → UploadNegotiationData →
    Except String UploadNegotiationData
  | [], nd => Except.ok nd
  | a :: rest, nd =>
    if a.actType = UploadActionAppend then
      handleActions price rest (handleUploadAppendType a nd price)
    else Except.error "failed to parse the upload action, unknown upload action type"

/-- parseAndHandleUploadActions (contractuploadhandler.go): seed the tentative
roots with the responsibility's current sector roots and process each action. -/
def parseAndHandleUploadActions (uploadReq : UploadRequest) (srSectorRoots : List MHash)
    (uploadBandwidthPrice : Int) : Except String UploadNegotiationData :=
  handleActions uploadBandwidthPrice uploadReq.actions
    { newRoots := [] ++ srSectorRoots
      sectorsChanged := []
      bandwidthRevenue := 0
      sectorGained := []
      gainedSectorData := []
      newMerkleRoot := MHash.leaf [] }

/-- updateRevisionFileSize (contractuploadhandler.go): each append action
grows the revision file size by one SectorSize. -/
def updateRevisionFileSize (newRev : StorageContractRevision) (uploadReq : UploadRequest) :
    StorageContractRevision :=
  { newRev with
    newFileSize := uploadReq.actions.foldl
      (fun sz a => if a.actType = UploadActionAppend then sz + SectorSize else sz)
      newRev.newFileSize }

/-- calcAndUpdateRevisionMerkleRoot (contractuploadhandler.go). -/
def calcAndUpdateRevisionMerkleRoot (nd : UploadNegotiationData)
    (newRev : StorageContractRevision) : UploadNegotiationData × StorageContractRevision :=
  let root := Sha256CachedTreeRoot2 nd.newRoots
  ({ nd with newMerkleRoot := root }, { newRev with newFileMerkleRoot := root })

/-- updateRevisionMissedAndValidPayback (contractuploadhandler.go): for each
index of the predecessor's valid-proof outputs, append a new charge carrying
the request's value at the predecessor's address; likewise for the
missed-proof outputs (the Go loop also ranges over the valid outputs there).
Note that newRev starts as a copy of currentRev, so the appends extend the
predecessor's output lists.  Out-of-range Go indexing (a panic) is modelled
with default values; the claims only use full-length request value lists. -/
def updateRevisionMissedAndValidPayback (newRev currentRev : StorageContractRevision)
    (uploadReq : UploadRequest) : StorageContractRevision :=
  { newRev with
    newValidProofOutputs := newRev.newValidProofOutputs ++
      (List.range currentRev.newValidProofOutputs.length).map fun i =>
        { value := uploadReq.newValidProofValues.getD i 0
          address := (currentRev.newValidProofOutputs.getD i default).address }
    newMissedProofOutputs := newRev.newMissedProofOutputs ++
      (List.range currentRev.newValidProofOutputs.length).map fun i =>
        { value := uploadReq.newMissedProofValues.getD i 0
          address := (currentRev.newMissedProofOutputs.getD i default).address } }

/-- The revision-construction part of constructAndVerifyNewRevision
(contractuploadhandler.go): copy the latest revision, set the requested
revision number, and apply the three update steps.  The subsequent
uploadRevisionValidation step is not part of the provided sources and is not
modelled here. -/
def constructNewRevision (nd : UploadNegotiationData)
    (currentRev : StorageContractRevision) (uploadReq : UploadRequest) :
    UploadNegotiationData × StorageContractRevision :=
  let newRev0 := { currentRev with newRevisionNumber := uploadReq.newRevisionNumber }
  let newRev1 := updateRevisionFileSize newRev0 uploadReq
  let p := calcAndUpdateRevisionMerkleRoot nd newRev1
  (p.1, updateRevisionMissedAndValidPayback p.2 currentRev uploadReq)

theorem Sha256CachedTreeRoot2_single (x : MHash) : Sha256CachedTreeRoot2 [x] = x := by
  unfold Sha256CachedTreeRoot2
  rw [cachedTreeRoot_single]
  rfl

/-- C5: the claim that a revision produced by the host's upload negotiation
from a two-output predecessor again has exactly two valid and two missed
proof outputs fails on the code: updateRevisionMissedAndValidPayback appends
to the copied predecessor lists, producing FOUR entries each (the
predecessor's two followed by the two new request-valued entries). -/
theorem C5_upload_payback_four_outputs :
    (updateRevisionMissedAndValidPayback
        { parentID := 0, newRevisionNumber := 2, newFileSize := 0
          newFileMerkleRoot := MHash.leaf [], newWindowStart := 0, newWindowEnd := 0
          newValidProofOutputs := [⟨1, 10⟩, ⟨2, 20⟩]
          newMissedProofOutputs := [⟨1, 10⟩, ⟨2, 20⟩], signatures := [] }
        { parentID := 0, newRevisionNumber := 1, newFileSize := 0
          newFileMerkleRoot := MHash.leaf [], newWindowStart := 0, newWindowEnd := 0
          newValidProofOutputs := [⟨1, 10⟩, ⟨2, 20⟩]
          newMissedProofOutputs := [⟨1, 10⟩, ⟨2, 20⟩], signatures := [] }
        { storageContractID := 0, actions := [], newRevisionNumber := 2
          newValidProofValues := [5, 6], newMissedProofValues := [7, 8] }).newValidProofOutputs =
      [⟨1, 10⟩, ⟨2, 20⟩, ⟨1, 5⟩, ⟨2, 6⟩] ∧
    (updateRevisionMissedAndValidPayback
        { parentID := 0, newRevisionNumber := 2, newFileSize := 0
          newFileMerkleRoot := MHash.leaf [], newWindowStart := 0, newWindowEnd := 0
          newValidProofOutputs := [⟨1, 10⟩, ⟨2, 20⟩]
          newMissedProofOutputs := [⟨1, 10⟩, ⟨2, 20⟩], signatures := [] }
        { parentID := 0, newRevisionNumber := 1, newFileSize := 0
          newFileMerkleRoot := MHash.leaf [], newWindowStart := 0, newWindowEnd := 0
          newValidProofOutputs := [⟨1, 10⟩, ⟨2, 20⟩]
          newMissedProofOutputs := [⟨1, 10⟩, ⟨2, 20⟩], signatures := [] }
        { storageContractID := 0, actions := [], newRevisionNumber := 2
          newValidProofValues := [5, 6], newMissedProofValues := [7, 8] }).newMissedProofOutputs =
      [⟨1, 10⟩, ⟨2, 20⟩, ⟨1, 7⟩, ⟨2, 8⟩] := by
  constructor <;> rfl

/-- C8: handling one append upload action starting from an empty sector-root
sequence yields a single tentative sector root equal to the Merkle root of
the appended data, a revision file Merkle root equal to that single leaf
root, and a revision file size of exactly one SectorSize. -/
theorem C8_first_append_shapes (data : List Nat) (currentRev : StorageContractRevision)
    (req : UploadRequest) (price : Int)
    (hsize : currentRev.newFileSize = 0)
    (hact : req.actions = [{ actType := UploadActionAppend, data := data }]) :
    ∃ nd, parseAndHandleUploadActions req [] price = Except.ok nd ∧
      nd.newRoots = [Sha256MerkleTreeRoot data] ∧
      (constructNewRevision nd currentRev req).2.newFileMerkleRoot =
        Sha256MerkleTreeRoot data ∧
      (constructNewRevision nd currentRev req).2.newFileSize = SectorSize := by
  have h1 : parseAndHandleUploadActions req [] price = Except.ok
      (handleUploadAppendType { actType := UploadActionAppend, data := data }
        { newRoots := [], sectorsChanged := [], bandwidthRevenue := 0, sectorGained := []
          gainedSectorData := [], newMerkleRoot := MHash.leaf [] } price) := by
    unfold parseAndHandleUploadActions
    rw [hact]
    rfl
  refine ⟨_, h1, rfl, ?_, ?_⟩
  · show Sha256CachedTreeRoot2 [Sha256MerkleTreeRoot data] = Sha256MerkleTreeRoot data
    exact Sha256CachedTreeRoot2_single _
  · show req.actions.foldl
      (fun sz a => if a.actType = UploadActionAppend then sz + SectorSize else sz)
      currentRev.newFileSize = SectorSize
    rw [hact, hsize]
    rfl

/-- Concrete predecessor revision for the C8 witness. -/
def c8Rev0 : StorageContractRevision :=
  { parentID := 0, newRevisionNumber := 1, newFileSize := 0
    newFileMerkleRoot := MHash.leaf [], newWindowStart := 0, newWindowEnd := 0
    newValidProofOutputs := [], newMissedProofOutputs := []
    signatures := [] }

/-- Concrete upload request for the C8 witness: one append of empty data. -/
def c8Req0 : UploadRequest :=
  { storageContractID := 0, actions := [{ actType := UploadActionAppend, data := [] }]
    newRevisionNumber := 2, newValidProofValues := []
    newMissedProofValues := [] }

/-- Witness for C8 at empty sector data and a trivial predecessor revision. -/
theorem C8_first_append_shapes_witness :
    (c8Rev0.newFileSize = 0 ∧
        c8Req0.actions = [{ actType := UploadActionAppend, data := [] }]) ∧
      ∃ nd, parseAndHandleUploadActions c8Req0 [] 0 = Except.ok nd ∧
        nd.newRoots = [Sha256MerkleTreeRoot []] ∧
        (constructNewRevision nd c8Rev0 c8Req0).2.newFileMerkleRoot =
          Sha256MerkleTreeRoot [] ∧
        (constructNewRevision nd c8Rev0 c8Req0).2.newFileSize = SectorSize :=
  ⟨⟨rfl, rfl⟩, C8_first_append_shapes [] c8Rev0 c8Req0 0 rfl rfl⟩

/-- types.StorageContract (the fields used by the embedded code). -/
structure StorageContract where
  fileSize : Nat
  fileMerkleRoot : MHash
  windowStart : Nat
  windowEnd : Nat
  renterCollateral : Int
  hostCollateral : Int
  unlockHash : Nat
  revisionNumber : Nat
  validProofOutputs : List DxcoinCharge
  missedProofOutputs : List DxcoinCharge
  signatures : List (List Nat)
deriving DecidableEq, Repr

/-- The storage contract assembled by StorageClient.ContractCreate: the Go
composite literal sets the fields below and omits Signatures, which therefore
keeps its zero value, the nil slice. -/
def contractCreateContract (renterPayout hostPayout : Int) (clientAddr hostAddr : Nat)
    (endHeight windowSize unlockHash : Nat) : StorageContract :=
  { fileSize := 0
    fileMerkleRoot := MHash.leaf []
    windowStart := endHeight
    windowEnd := endHeight + windowSize
    renterCollateral := renterPayout
    hostCollateral := hostPayout
    unlockHash := unlockHash
    revisionNumber := 0
    validProofOutputs := [⟨clientAddr, renterPayout⟩, ⟨hostAddr, hostPayout⟩]
    missedProofOutputs := [⟨clientAddr, renterPayout⟩, ⟨hostAddr, hostPayout⟩]
    signatures := [] }

/-- Go slice index assignment s[i] = v: none models the index-out-of-range
panic when i is not below the slice length. -/
def goSliceSet (l : List (List Nat)) (i : Nat) (v : List Nat) : Option (List (List Nat)) :=
  if i < l.length then some (l.set i v) else none

/-- C6: the claim that at the point of assembling the finalized contract the
signature list has two entries and the index-1/index-0 assignments are in
bounds fails on the code: ContractCreate never allocates Signatures, so the
assignment storageContract.Signatures[1] = hostSign hits a nil slice and
panics on every execution that reaches it. -/
theorem C6_contract_create_signature_panic (renterPayout hostPayout : Int)
    (clientAddr hostAddr endHeight windowSize unlockHash : Nat) (hostSign : List Nat) :
    (contractCreateContract renterPayout hostPayout clientAddr hostAddr endHeight
        windowSize unlockHash).signatures = [] ∧
      goSliceSet (contractCreateContract renterPayout hostPayout clientAddr hostAddr
        endHeight windowSize unlockHash).signatures 1 hostSign = none ∧
      goSliceSet (contractCreateContract renterPayout hostPayout clientAddr hostAddr
        endHeight windowSize unlockHash).signatures 0 hostSign = none :=
  ⟨rfl, rfl, rfl⟩

/-- StorageHost.ReadSector (negotiationproto.go): the body is
return h.ReadSector(sectorRoot) — the method calls itself with the same
argument.  The fuel parameter counts call unfoldings. -/
def readSectorFuel : Nat → MHash → Option (Except String (List Nat))
  | 0, _ => none
  | fuel + 1, root => readSectorFuel fuel root

/-- C10: the claim that the host's public ReadSector terminates for every
sector root fails on the code: no number of unfoldings of its self-call ever
produces a result (the Go method recurses into itself unboundedly). -/
theorem C10_read_sector_never_returns :
    ∀ (fuel : Nat) (root : MHash), readSectorFuel fuel root = none := by
  intro fuel
  induction fuel with
  | zero => intro root; rfl
  | succ fuel ih => intro root; exact ih root

/-- selectSingleEntry scan (consensus/dpos): walk the entries, returning the
first index whose vote weight is at most the remaining random value,
subtracting each passed weight; after the loop return len(entries) - 1. -/
def selectSingleEntryAux : List Int → Int → Nat → Nat → Int
  | [], _, _, total => (total : Int) - 1
  | v :: rest, selected, i, total =>
    if v ≤ selected then (i : Int)
    else selectSingleEntryAux rest (selected - v) (i + 1) total

/-- luckyWheel.selectSingleEntry (consensus/dpos), with the drawn random
value passed in. -/
def selectSingleEntry (votes : List Int) (selected : Int) : Int :=
  selectSingleEntryAux votes selected 0 votes.length

/-- The scan exhausts every entry without making a selection. -/
def noSelection : List Int → Int → Bool
  | [], _ => true
  | v :: rest, selected => if v ≤ selected then false else noSelection rest (selected - v)

theorem selectSingleEntryAux_spec :
    ∀ (votes : List Int) (selected : Int) (i total : Nat),
      i + votes.length = total → 0 < total →
      (0 ≤ selectSingleEntryAux votes selected i total ∧
        selectSingleEntryAux votes selected i total < (total : Int)) ∧
      (noSelection votes selected = true →
        selectSingleEntryAux votes selected i total = (total : Int) - 1) := by
  intro votes
  induction votes with
  | nil =>
    intro selected i total hlen hpos
    refine ⟨⟨?_, ?_⟩, fun _ => rfl⟩
    · show (0 : Int) ≤ (total : Int) - 1
      omega
    · show (total : Int) - 1 < (total : Int)
      omega
  | cons v rest ih =>
    intro selected i total hlen hpos
    have e1 : selectSingleEntryAux (v :: rest) selected i total =
        if v ≤ selected then (i : Int)
        else selectSingleEntryAux rest (selected - v) (i + 1) total := rfl
    have e2 : noSelection (v :: rest) selected =
        if v ≤ selected then false else noSelection rest (selected - v) := rfl
    by_cases hsel : v ≤ selected
    · have h1 : selectSingleEntryAux (v :: rest) selected i total = (i : Int) := by
        rw [e1, if_pos hsel]
      have h2 : noSelection (v :: rest) selected = false := by
        rw [e2, if_pos hsel]
      rw [h1]
      refine ⟨⟨by omega, ?_⟩, ?_⟩
      · have : i < total := by simp at hlen; omega
        exact_mod_cast this
      · intro hno
        rw [h2] at hno
        exact absurd hno (by simp)
    · have h1 : selectSingleEntryAux (v :: rest) selected i total =
          selectSingleEntryAux rest (selected - v) (i + 1) total := by
        rw [e1, if_neg hsel]
      have h2 : noSelection (v :: rest) selected = noSelection rest (selected - v) := by
        rw [e2, if_neg hsel]
      rw [h1, h2]
      exact ih (selected - v) (i + 1) total (by simp at hlen ⊢; omega) hpos

/-- C9: for every non-empty entry list, the lucky-wheel single-entry selection
returns an index within bounds, and when the weighted scan exhausts every
entry without selecting it returns the index of the last remaining entry
rather than an error. -/
theorem C9_lucky_wheel_selection (votes : List Int) (selected : Int) (hne : votes ≠ []) :
    (0 ≤ selectSingleEntry votes selected ∧
        selectSingleEntry votes selected < (votes.length : Int)) ∧
      (noSelection votes selected = true →
        selectSingleEntry votes selected = (votes.length : Int) - 1) :=
  selectSingleEntryAux_spec votes selected 0 votes.length (Nat.zero_add _)
    (List.length_pos.mpr hne)

/-- Witness for C9 at votes [1, 2] and random value -1 (no entry selected). -/
theorem C9_lucky_wheel_selection_witness :
    ([(1 : Int), 2] ≠ [] ∧ noSelection [(1 : Int), 2] (-1) = true) ∧
      (0 ≤ selectSingleEntry [(1 : Int), 2] (-1) ∧
          selectSingleEntry [(1 : Int), 2] (-1) < (([(1 : Int), 2].length : Nat) : Int)) ∧
        (noSelection [(1 : Int), 2] (-1) = true →
          selectSingleEntry [(1 : Int), 2] (-1) = (([(1 : Int), 2].length : Nat) : Int) - 1) :=
  ⟨⟨by decide, by decide⟩, C9_lucky_wheel_selection [1, 2] (-1) (by decide)⟩

/-- storage.DownloadRequestSection. -/
structure DownloadRequestSection where
  merkleRoot : MHash
  offset : Nat
  length : Nat
deriving DecidableEq, Repr

/-- storage.DownloadRequest (the request fields the client validates). -/
structure DownloadRequest where
  sections : List DownloadRequestSection
  merkleProof : Bool
deriving DecidableEq, Repr

/-- storage.RPCMinLen.  Modelled from the spec: a minimum payload size used
only to clamp the bandwidth estimate (its exact value does not affect the
claims). -/
def RPCMinLen : Nat := 4096

/-- Host price metadata consumed by the download cost estimate. -/
structure HostInfo where
  downloadBandwidthPrice : Int
  sectorAccessPrice : Int
  baseRPCPrice : Int
deriving DecidableEq, Repr

/-- Outcome of the modelled prefix of StorageClient.Read: either the call
returned an error (or hit a Go panic) before any network send, or it reached
the first network send of the download request. -/
inductive ReadOutcome : Type where
  | failed : String → ReadOutcome
  | sentRequest : ReadOutcome
deriving DecidableEq, Repr

/-- The request sanity check loop at the top of StorageClient.Read: each
section must lie within one sector, and with a Merkle proof requested its
offset and length must be SegmentSize-aligned. -/
def readSanityCheck : List DownloadRequestSection → Bool → Option String
  | [], _ => none
  | sec :: rest, mp =>
    if SectorSize < sec.offset + sec.length then some "illegal offset and/or length"
    else if mp ∧ ¬ (sec.offset % SegmentSize = 0 ∧ sec.length % SegmentSize = 0) then
      some "offset and length must be multiples of SegmentSize when requesting a Merkle proof"
    else readSanityCheck rest mp

/-- StorageClient.Read up to its first network send: the sanity check runs
first; then the bandwidth estimate, the sector-access count, the price and
the funds check against the latest revision; building and signing the paying
revision (wallet interaction and the float price fudge are external inputs,
passed as parameters); any failure in this prefix returns before a message is
sent, and otherwise the download request is sent.  The latest revision is a
parameter (its retrieval is a stub in the source). -/
def clientRead (lastRev : StorageContractRevision) (hostInfo : HostInfo)
    (fudge : Int → Int) (signOk : Bool) (req : DownloadRequest) : ReadOutcome :=
  match readSanityCheck req.sections req.merkleProof with
  | some e => ReadOutcome.failed e
  | none =>
    let totalLength := req.sections.foldl (fun acc s => acc + s.length) 0
    let estHashesPerProof := 2 * len64 (SectorSize / SegmentSize)
    let estProofHashes :=
      if req.merkleProof then req.sections.length * estHashesPerProof else 0
    let estBandwidth := max (totalLength + estProofHashes * HashSize) RPCMinLen
    let sectorAccesses := (req.sections.map fun s => s.merkleRoot).dedup.length
    let bandwidthPrice := hostInfo.downloadBandwidthPrice * (estBandwidth : Int)
    let sectorAccessPrice := hostInfo.sectorAccessPrice * (sectorAccesses : Int)
    let price := hostInfo.baseRPCPrice + bandwidthPrice + sectorAccessPrice
    match lastRev.newValidProofOutputs with
    | [] => ReadOutcome.failed "panic: index out of range"
    | out0 :: _ =>
      if out0.value < price then
        ReadOutcome.failed "contract has insufficient funds to support download"
      else
        let _priceFudged := fudge price
        if signOk then ReadOutcome.sentRequest
        else ReadOutcome.failed "client sign revision error"

theorem readSanityCheck_some :
    ∀ (secs : List DownloadRequestSection),
      (∃ sec ∈ secs, sec.offset % SegmentSize ≠ 0 ∨ sec.length % SegmentSize ≠ 0 ∨
        SectorSize < sec.offset + sec.length) →
      ∃ e, readSanityCheck secs true = some e := by
  intro secs
  induction secs with
  | nil =>
    intro ⟨sec, hmem, _⟩
    exact absurd hmem (by simp)
  | cons sec0 rest ih =>
    intro ⟨sec, hmem, hbad⟩
    have e0 : readSanityCheck (sec0 :: rest) true =
        (if SectorSize < sec0.offset + sec0.length then some "illegal offset and/or length"
        else if (true : Bool) = true ∧
            ¬ (sec0.offset % SegmentSize = 0 ∧ sec0.length % SegmentSize = 0) then
          some "offset and length must be multiples of SegmentSize when requesting a Merkle proof"
        else readSanityCheck rest true) := rfl
    by_cases h1 : SectorSize < sec0.offset + sec0.length
    · rw [e0, if_pos h1]
      exact ⟨_, rfl⟩
    · by_cases h2 : sec0.offset % SegmentSize = 0 ∧ sec0.length % SegmentSize = 0
      · have hnsec0 : ¬ (sec0.offset % SegmentSize ≠ 0 ∨ sec0.length % SegmentSize ≠ 0 ∨
            SectorSize < sec0.offset + sec0.length) := by
          push_neg
          exact ⟨h2.1, h2.2, by omega⟩
        have hmem' : sec ∈ rest := by
          rcases List.mem_cons.mp hmem with hh | hh
          · subst hh; exact absurd hbad hnsec0
          · exact hh
        obtain ⟨e, he⟩ := ih ⟨sec, hmem', hbad⟩
        rw [e0, if_neg h1, if_neg (by tauto)]
        exact ⟨e, he⟩
      · rw [e0, if_neg h1, if_pos ⟨rfl, h2⟩]
        exact ⟨_, rfl⟩

/-- C7: for every download request with a Merkle proof requested in which some
section is not SegmentSize-aligned (or exceeds the sector bounds), the
client's Read returns an error before sending any message to the host. -/
theorem C7_read_rejects_before_send (lastRev : StorageContractRevision)
    (hostInfo : HostInfo) (fudge : Int → Int) (signOk : Bool) (req : DownloadRequest)
    (hmp : req.merkleProof = true)
    (hbad : ∃ sec ∈ req.sections, sec.offset % SegmentSize ≠ 0 ∨
      sec.length % SegmentSize ≠ 0 ∨ SectorSize < sec.offset + sec.length) :
    ∃ e, clientRead lastRev hostInfo fudge signOk req = ReadOutcome.failed e := by
  obtain ⟨e, he⟩ := readSanityCheck_some req.sections hbad
  refine ⟨e, ?_⟩
  unfold clientRead
  rw [hmp, he]

/-- Concrete download request for the C7 witness: one proof-requesting
section at the misaligned offset 1. -/
def c7Req0 : DownloadRequest :=
  { sections := [{ merkleRoot := MHash.leaf [], offset := 1, length := 64 }]
    merkleProof := true }

/-- Concrete latest revision for the C7 witness. -/
def c7Rev0 : StorageContractRevision :=
  { parentID := 0, newRevisionNumber := 1, newFileSize := 0
    newFileMerkleRoot := MHash.leaf [], newWindowStart := 0, newWindowEnd := 0
    newValidProofOutputs := [], newMissedProofOutputs := [], signatures := [] }

/-- Concrete host prices for the C7 witness. -/
def c7Host0 : HostInfo :=
  { downloadBandwidthPrice := 0, sectorAccessPrice := 0, baseRPCPrice := 0 }

/-- Witness for C7: a proof-requesting request whose only section has offset 1. -/
theorem C7_read_rejects_before_send_witness :
    (c7Req0.merkleProof = true ∧
      ∃ sec ∈ c7Req0.sections, sec.offset % SegmentSize ≠ 0 ∨
        sec.length % SegmentSize ≠ 0 ∨ SectorSize < sec.offset + sec.length) ∧
      ∃ e, clientRead c7Rev0 c7Host0 (fun x => x) true c7Req0 = ReadOutcome.failed e :=
  ⟨⟨rfl, by decide⟩,
    C7_read_rejects_before_send c7Rev0 c7Host0 (fun x => x) true c7Req0 rfl (by decide)⟩

end Godx
